import Mathlib

/-
Verification of the fmmax scattering-matrix stack engine (`fmmax/scattering.py`)
and the differentiable eigendecomposition (`fmmax/_eig.py`).

Shallow embedding conventions:
* Matrices are `Matrix (Fin n) (Fin n) K` over a computable field `K`
  (exact arithmetic stands in for floating point).
* The complex phase factor `jnp.exp(1j * q * thickness)` is embedded as an
  abstract function `phase : K → A → K`, where `A` is the (additive) domain of
  thicknesses.  Properties of the true exponential that a theorem needs
  (additivity in the thickness) are stated as explicit hypotheses.
* `jnp.linalg.solve` / `utils.solve` (the latter lives in a module that is not
  part of the provided sources) is embedded as multiplication by the explicit
  adjugate-based inverse, which is computable.
* Batch dimensions are dropped (a single batch element is modelled); sequences
  of layers become `List`s.
-/

set_option linter.unusedSectionVars false
set_option linter.unusedVariables false
set_option linter.unnecessarySeqFocus false

namespace FmmaxSpec

section MatrixHelpers

variable {n : ℕ} {K : Type} [Field K] [DecidableEq K]

/-- Computable matrix inverse of a square matrix over a field, via the adjugate.
It agrees with Mathlib's noncomputable `Matrix.inv`. -/
def minv (M : Matrix (Fin n) (Fin n) K) : Matrix (Fin n) (Fin n) K :=
  (M.det)⁻¹ • M.adjugate


/-- Modelled from the spec: `utils.solve` performs the linear solve `A x = b`
(never an explicit inverse in the code; here the exact inverse is the
mathematical meaning of that solve). -/
def msolve (A B : Matrix (Fin n) (Fin n) K) : Matrix (Fin n) (Fin n) K :=
  minv A * B


/-- Embedding of broadcast multiplication `v[..., newaxis] * M`, which scales
row `i` of `M` by `v i`. -/
def rowScale (v : Fin n → K) (M : Matrix (Fin n) (Fin n) K) : Matrix (Fin n) (Fin n) K :=
  Matrix.of fun i j => v i * M i j

/-- Embedding of broadcast multiplication `M * v[..., newaxis, :]`, which scales
column `j` of `M` by `v j`. -/
def colScale (M : Matrix (Fin n) (Fin n) K) (v : Fin n → K) : Matrix (Fin n) (Fin n) K :=
  Matrix.of fun i j => M i j * v j



/-- Modelled from the spec: `misc.diag` builds a diagonal matrix from a vector
(used in the code as `misc.diag(jnp.ones_like(...))` for identities). -/
def mdiag (v : Fin n → K) : Matrix (Fin n) (Fin n) K :=
  Matrix.diagonal v


end MatrixHelpers

section DataModel

/-- Modelled from the spec: the per-layer eigenmode solution bundle
(`fmm.LayerSolveResult`, whose defining module is not among the provided
sources).  It carries eigenvalues, eigenvectors, the omega-script-k coupling
matrix, and an opaque optional tangent vector field (whose payload is
irrelevant to the claims and is modelled as `Unit`). -/
structure LayerSolveResult (n : ℕ) (K : Type) where
  eigenvalues : Fin n → K
  eigenvectors : Matrix (Fin n) (Fin n) K
  omega_script_k_matrix : Matrix (Fin n) (Fin n) K
  tangent_vector_field : Option Unit
deriving DecidableEq

/-- Embedding of `dataclasses.replace(solve_result, tangent_vector_field=None)`. -/
def stripTangent {n : ℕ} {K : Type} (l : LayerSolveResult n K) : LayerSolveResult n K :=
  { l with tangent_vector_field := none }

/-- Modelled from the spec: `fmm.broadcast_result` broadcasts a solve result to
a common batch shape.  With batch dimensions dropped it preserves every field. -/
def broadcastResult {n : ℕ} {K : Type} (l : LayerSolveResult n K) : LayerSolveResult n K :=
  l

/-- Embedding of the `ScatteringMatrix` dataclass of `fmmax/scattering.py`. -/
@[ext]
structure ScatteringMatrix (n : ℕ) (K A : Type) where
  s11 : Matrix (Fin n) (Fin n) K
  s12 : Matrix (Fin n) (Fin n) K
  s21 : Matrix (Fin n) (Fin n) K
  s22 : Matrix (Fin n) (Fin n) K
  start_layer_solve_result : LayerSolveResult n K
  start_layer_thickness : A
  end_layer_solve_result : LayerSolveResult n K
  end_layer_thickness : A
deriving DecidableEq

/-- Quadruple of scattering-matrix blocks, as passed around by
`_extend_s_matrix` (`s_matrix_blocks: Tuple[...]` in the code). -/
@[ext]
structure SBlocks (n : ℕ) (K : Type) where
  b11 : Matrix (Fin n) (Fin n) K
  b12 : Matrix (Fin n) (Fin n) K
  b21 : Matrix (Fin n) (Fin n) K
  b22 : Matrix (Fin n) (Fin n) K
deriving DecidableEq

/-- Block quadruple of a `ScatteringMatrix`. -/
def toBlocks {n : ℕ} {K A : Type} (s : ScatteringMatrix n K A) : SBlocks n K :=
  ⟨s.s11, s.s12, s.s21, s.s22⟩

end DataModel

section Engine

variable {n : ℕ} {K A : Type} [Field K] [DecidableEq K] [AddCommGroup A]

/-- Embedding of `term1` from `_extend_s_matrix` / `_pair_s_matrix`:
`q[..., newaxis] * solve(omega_k @ phi, next_omega_k @ next_phi * (1/next_q)[..., newaxis, :])`. -/
def interfaceTerm1 (l l' : LayerSolveResult n K) : Matrix (Fin n) (Fin n) K :=
  rowScale l.eigenvalues
    (msolve (l.omega_script_k_matrix * l.eigenvectors)
      (colScale (l'.omega_script_k_matrix * l'.eigenvectors) fun b => (l'.eigenvalues b)⁻¹))

/-- Embedding of `term2 = solve(omega_k @ phi, omega_k @ next_phi)`. -/
def interfaceTerm2 (l l' : LayerSolveResult n K) : Matrix (Fin n) (Fin n) K :=
  msolve (l.omega_script_k_matrix * l.eigenvectors) (l.omega_script_k_matrix * l'.eigenvectors)

/-- Interface matrix `i11` (aliased to `i22` in the code):
`0.5 * (term1 + term2)`. -/
def i11M (l l' : LayerSolveResult n K) : Matrix (Fin n) (Fin n) K :=
  (2 : K)⁻¹ • (interfaceTerm1 l l' + interfaceTerm2 l l')

/-- Interface matrix `i12` (aliased to `i21` in the code):
`0.5 * (-term1 + term2)`. -/
def i12M (l l' : LayerSolveResult n K) : Matrix (Fin n) (Fin n) K :=
  (2 : K)⁻¹ • (-interfaceTerm1 l l' + interfaceTerm2 l l')

/-- Embedding of the per-mode phase vector `fd = jnp.exp(1j * q * thickness)`:
the abstract `phase` stands for the map `(q, d) ↦ exp(1j * q * d)`. -/
def fdVec (phase : K → A → K) (l : LayerSolveResult n K) (t : A) : Fin n → K :=
  fun i => phase (l.eigenvalues i) t

/-- Embedding of `_extend_s_matrix`: extends a block quadruple by one layer,
where `l`/`t` are the data of the current end layer and `l'`/`t'` those of the
appended layer. -/
def extendSMatrix (phase : K → A → K) (X : SBlocks n K) (l : LayerSolveResult n K) (t : A)
    (l' : LayerSolveResult n K) (t' : A) : SBlocks n K :=
  let i11v := i11M l l'
  let i12v := i12M l l'
  let fd := fdVec phase l t
  let fdn := fdVec phase l' t'
  let term3 := i11v - rowScale fd X.b12 * i12v
  let s11n := msolve term3 (rowScale fd X.b11)
  let s12n := msolve term3 (colScale (rowScale fd X.b12 * i11v - i12v) fdn)
  let s21n := X.b22 * i12v * s11n + X.b21
  let s22n := X.b22 * i12v * s12n + colScale (X.b22 * i11v) fdn
  ⟨s11n, s12n, s21n, s22n⟩

/-- Embedding of `append_layer`. -/
def appendLayer (phase : K → A → K) (s : ScatteringMatrix n K A)
    (l' : LayerSolveResult n K) (t' : A) : ScatteringMatrix n K A :=
  let e := extendSMatrix phase (toBlocks s) s.end_layer_solve_result s.end_layer_thickness l' t'
  { s11 := e.b11
    s12 := e.b12
    s21 := e.b21
    s22 := e.b22
    start_layer_solve_result := s.start_layer_solve_result
    start_layer_thickness := s.start_layer_thickness
    end_layer_solve_result := l'
    end_layer_thickness := t' }

/-- Embedding of `prepend_layer`: the extension is applied to the block-swapped
quadruple `(s22, s21, s12, s11)` with the start layer as the boundary, and the
outputs are read back in swapped order. -/
def prependLayer (phase : K → A → K) (s : ScatteringMatrix n K A)
    (l' : LayerSolveResult n K) (t' : A) : ScatteringMatrix n K A :=
  let e := extendSMatrix phase ⟨s.s22, s.s21, s.s12, s.s11⟩
    s.start_layer_solve_result s.start_layer_thickness l' t'
  { s11 := e.b22
    s12 := e.b21
    s21 := e.b12
    s22 := e.b11
    start_layer_solve_result := l'
    start_layer_thickness := t'
    end_layer_solve_result := s.end_layer_solve_result
    end_layer_thickness := s.end_layer_thickness }

/-- Embedding of `_pair_s_matrix`. -/
def pairSMatrix (phase : K → A → K) (l : LayerSolveResult n K) (t : A)
    (l' : LayerSolveResult n K) (t' : A) : ScatteringMatrix n K A :=
  let i11v := i11M l l'
  let i12v := i12M l l'
  let fd := fdVec phase l t
  let fdn := fdVec phase l' t'
  let s11 := msolve i11v (mdiag fd)
  let s12 := msolve i11v (colScale (-i12v) fdn)
  let s21 := i12v * s11
  let s22 := i12v * s12 + colScale i11v fdn
  { s11 := s11
    s12 := s12
    s21 := s21
    s22 := s22
    start_layer_solve_result := l
    start_layer_thickness := t
    end_layer_solve_result := l'
    end_layer_thickness := t' }

/-- Embedding of the initial single-layer scattering matrix built in
`_stack_s_matrices` and `stack_s_matrix_scan`: identity `s11`/`s22`, zero
`s12`/`s21`, and the single layer as both boundary layers. -/
def idSMat (l : LayerSolveResult n K) (t : A) : ScatteringMatrix n K A :=
  { s11 := mdiag fun _ => 1
    s12 := 0
    s21 := 0
    s22 := mdiag fun _ => 1
    start_layer_solve_result := l
    start_layer_thickness := t
    end_layer_solve_result := l
    end_layer_thickness := t }

/-- Sequential appending of layers (the `jax.lax.scan` over `append_layer`),
returning only the final matrix. -/
def scanFold (phase : K → A → K) (s : ScatteringMatrix n K A) :
    List (LayerSolveResult n K × A) → ScatteringMatrix n K A
  | [] => s
  | (l, t) :: rest => scanFold phase (appendLayer phase s l t) rest

/-- Sequential appending of layers collecting every intermediate matrix (the
stacked side outputs of the `jax.lax.scan` in `_stack_s_matrices`). -/
def scanCollect (phase : K → A → K) (s : ScatteringMatrix n K A) :
    List (LayerSolveResult n K × A) → List (ScatteringMatrix n K A)
  | [] => []
  | (l, t) :: rest =>
    appendLayer phase s l t :: scanCollect phase (appendLayer phase s l t) rest

/-- Embedding of `_stack_s_matrices` after input validation and tangent-field
stripping: the scattering matrices of every prefix substack. -/
def stackSMatricesCore (phase : K → A → K) (l0 : LayerSolveResult n K) (t0 : A) :
    List (LayerSolveResult n K × A) → List (ScatteringMatrix n K A)
  | [] => [idSMat l0 t0]
  | (l1, t1) :: rest =>
    idSMat l0 t0 :: pairSMatrix phase l0 t0 l1 t1 ::
      scanCollect phase (pairSMatrix phase l0 t0 l1 t1) rest

/-- Final element of `stackSMatricesCore` (the `[-1]` of `stack_s_matrix`). -/
def stackSMatrixCore (phase : K → A → K) (l0 : LayerSolveResult n K) (t0 : A) :
    List (LayerSolveResult n K × A) → ScatteringMatrix n K A
  | [] => idSMat l0 t0
  | (l1, t1) :: rest => scanFold phase (pairSMatrix phase l0 t0 l1 t1) rest

/-- Embedding of `stack_s_matrix_scan` after input validation: the identity
matrix of the first layer extended by every further layer via a scan of
`append_layer`.  Unlike `_stack_s_matrices` it does not strip tangent fields. -/
def stackSMatrixScanCore (phase : K → A → K) (l0 : LayerSolveResult n K) (t0 : A)
    (rest : List (LayerSolveResult n K × A)) : ScatteringMatrix n K A :=
  scanFold phase (idSMat l0 t0) rest

/-- Embedding of the block/boundary swap used to turn a scattering matrix of a
reversed stack into one of the original stack (`stack_s_matrices_interior`,
where `s11` becomes `s22`, `s12` becomes `s21`, and start and end layer data
are exchanged). -/
def reverseSMatrix (s : ScatteringMatrix n K A) : ScatteringMatrix n K A :=
  { s11 := s.s22
    s12 := s.s21
    s21 := s.s12
    s22 := s.s11
    start_layer_solve_result := s.end_layer_solve_result
    start_layer_thickness := s.end_layer_thickness
    end_layer_solve_result := s.start_layer_solve_result
    end_layer_thickness := s.start_layer_thickness }

/-- Embedding of `set_end_layer_thickness`: rescales the columns of `s12` and
`s22` by the incremental phase `exp(1j * q * (thickness - end_thickness))`. -/
def setEndLayerThickness (phase : K → A → K) (s : ScatteringMatrix n K A) (t : A) :
    ScatteringMatrix n K A :=
  let fd : Fin n → K := fun i =>
    phase (s.end_layer_solve_result.eigenvalues i) (t - s.end_layer_thickness)
  { s11 := s.s11
    s12 := colScale s.s12 fd
    s21 := s.s21
    s22 := colScale s.s22 fd
    start_layer_solve_result := s.start_layer_solve_result
    start_layer_thickness := s.start_layer_thickness
    end_layer_solve_result := s.end_layer_solve_result
    end_layer_thickness := t }

/-- Embedding of `set_start_layer_thickness`: rescales the columns of `s11` and
`s21` by the incremental phase for the start layer. -/
def setStartLayerThickness (phase : K → A → K) (s : ScatteringMatrix n K A) (t : A) :
    ScatteringMatrix n K A :=
  let fd : Fin n → K := fun i =>
    phase (s.start_layer_solve_result.eigenvalues i) (t - s.start_layer_thickness)
  { s11 := colScale s.s11 fd
    s12 := s.s12
    s21 := colScale s.s21 fd
    s22 := s.s22
    start_layer_solve_result := s.start_layer_solve_result
    start_layer_thickness := t
    end_layer_solve_result := s.end_layer_solve_result
    end_layer_thickness := s.end_layer_thickness }

/-- Classical Redheffer star-product block algebra of `redheffer_star_product`
(after the first operand has been extended by the second operand's start
layer):  two linear solves against `1 - a12 b21` and `1 - b21 a12`. -/
def starB (a b : SBlocks n K) : SBlocks n K :=
  { b11 := b.b11 * msolve (1 - a.b12 * b.b21) a.b11
    b12 := b.b12 + b.b11 * msolve (1 - a.b12 * b.b21) (a.b12 * b.b22)
    b21 := a.b21 + a.b22 * msolve (1 - b.b21 * a.b12) (b.b21 * a.b11)
    b22 := a.b22 * msolve (1 - b.b21 * a.b12) b.b22 }

/-- Embedding of `redheffer_star_product`: extend `a` by `b`'s start layer via
`append_layer`, then combine with `b`'s blocks by the star-product algebra. -/
def redhefferStarProduct (phase : K → A → K) (a b : ScatteringMatrix n K A) :
    ScatteringMatrix n K A :=
  let aExt := appendLayer phase a b.start_layer_solve_result b.start_layer_thickness
  let r := starB (toBlocks aExt) (toBlocks b)
  { s11 := r.b11
    s12 := r.b12
    s21 := r.b21
    s22 := r.b22
    start_layer_solve_result := a.start_layer_solve_result
    start_layer_thickness := a.start_layer_thickness
    end_layer_solve_result := b.end_layer_solve_result
    end_layer_thickness := b.end_layer_thickness }

end Engine

section Validation

variable {n : ℕ} {K A : Type} [Field K] [DecidableEq K] [AddCommGroup A]

/-- Structured embedding of the exceptions raised by the stack functions.  The
`ValueError` messages of the code name the two mismatched sizes; the
constructors carry those sizes as data. -/
inductive StackError where
  | lengthMismatch (numSolveResults numThicknesses : ℕ)
  | scanLengthMismatch (numSolveResults numThicknesses : ℕ)
  | indexOutOfRange
deriving DecidableEq

/-- Embedding of `_stack_s_matrices` with its input validation: the length
check is performed before any numeric work; then tangent vector fields are
stripped, results are broadcast, and the prefix matrices are built.  Indexing
an empty sequence is a distinct (index) error, not a validation error. -/
def stackSMatricesE (phase : K → A → K) (solves : List (LayerSolveResult n K)) (ts : List A) :
    Except StackError (List (ScatteringMatrix n K A)) :=
  if solves.length ≠ ts.length then
    .error (.lengthMismatch solves.length ts.length)
  else
    match (solves.map stripTangent).map broadcastResult, ts with
    | [], _ => .error .indexOutOfRange
    | _ :: _, [] => .error .indexOutOfRange
    | l0 :: ls, t0 :: ts' => .ok (stackSMatricesCore phase l0 t0 (ls.zip ts'))

/-- Embedding of `stack_s_matrix`: the last element of `_stack_s_matrices`. -/
def stackSMatrixE (phase : K → A → K) (solves : List (LayerSolveResult n K)) (ts : List A) :
    Except StackError (ScatteringMatrix n K A) :=
  if solves.length ≠ ts.length then
    .error (.lengthMismatch solves.length ts.length)
  else
    match (solves.map stripTangent).map broadcastResult, ts with
    | [], _ => .error .indexOutOfRange
    | _ :: _, [] => .error .indexOutOfRange
    | l0 :: ls, t0 :: ts' => .ok (stackSMatrixCore phase l0 t0 (ls.zip ts'))

/-- Embedding of `stack_s_matrix_scan` with its input validation: the leading
batch dimension of the stacked solve results (here the length of the list)
must match the number of thicknesses. -/
def stackSMatrixScanE (phase : K → A → K) (solves : List (LayerSolveResult n K)) (ts : List A) :
    Except StackError (ScatteringMatrix n K A) :=
  if solves.length ≠ ts.length then
    .error (.scanLengthMismatch solves.length ts.length)
  else
    match solves, ts with
    | [], _ => .error .indexOutOfRange
    | _ :: _, [] => .error .indexOutOfRange
    | l0 :: ls, t0 :: ts' => .ok (stackSMatrixScanCore phase l0 t0 (ls.zip ts'))

/-- Embedding of `stack_s_matrices_interior`: prefix matrices from the stack
reduction, suffix matrices from the reduction of the reversed stack followed by
un-reversing and block-swapping. -/
def stackSMatricesInteriorE (phase : K → A → K) (solves : List (LayerSolveResult n K))
    (ts : List A) : Except StackError (List (ScatteringMatrix n K A × ScatteringMatrix n K A)) :=
  match stackSMatricesE phase solves ts, stackSMatricesE phase solves.reverse ts.reverse with
  | .ok before, .ok rev => .ok (before.zip ((rev.reverse).map reverseSMatrix))
  | .error e, _ => .error e
  | _, .error e => .error e

end Validation

section DerivedDefs

variable {n : ℕ} {K A : Type} [Field K] [DecidableEq K] [AddCommGroup A]

/-- Interface scattering blocks of a single layer transition: the transfer of
`_extend_s_matrix` viewed as a scattering matrix, so that extending equals a
star product with these blocks. -/
def interfaceSB {A : Type} [AddCommGroup A] (phase : K → A → K) (l : LayerSolveResult n K)
    (t : A) (l' : LayerSolveResult n K) (t' : A) : SBlocks n K :=
  let I := i11M l l'
  let J := i12M l l'
  let F := Matrix.diagonal (fdVec phase l t)
  let G := Matrix.diagonal (fdVec phase l' t')
  { b11 := minv I * F
    b12 := -(minv I * (J * G))
    b21 := J * (minv I * F)
    b22 := (I - J * (minv I * J)) * G }

/-- Blocks of the first operand of `redheffer_star_product` after it has been
extended by the second operand's start layer (the `append_layer` call inside
the star product). -/
def starExtendBlocks (phase : K → A → K) (a b : ScatteringMatrix n K A) : SBlocks n K :=
  extendSMatrix phase (toBlocks a) a.end_layer_solve_result a.end_layer_thickness
    b.start_layer_solve_result b.start_layer_thickness

/-- Interface scattering blocks of the transition from `b`'s end layer to
`c`'s start layer. -/
def interfaceAt (phase : K → A → K) (b c : ScatteringMatrix n K A) : SBlocks n K :=
  interfaceSB phase b.end_layer_solve_result b.end_layer_thickness
    c.start_layer_solve_result c.start_layer_thickness

/-- Replace the thickness of the last layer of a nonempty layer list. -/
def setLastThickness : List (LayerSolveResult n K × A) → A → List (LayerSolveResult n K × A)
  | [], _ => []
  | [(l, _)], t2 => [(l, t2)]
  | p :: q :: rest, t2 => p :: setLastThickness (q :: rest) t2

/-- Both boundary references of a scattering matrix carry no tangent field. -/
def RefsStripped (s : ScatteringMatrix n K A) : Prop :=
  s.start_layer_solve_result.tangent_vector_field = none ∧
    s.end_layer_solve_result.tangent_vector_field = none

/-- Agreement of two scattering matrices on all four blocks and on the
numerical end-layer data (which is all that further appends consume). -/
def BlocksEndEq (s s' : ScatteringMatrix n K A) : Prop :=
  s.s11 = s'.s11 ∧ s.s12 = s'.s12 ∧ s.s21 = s'.s21 ∧ s.s22 = s'.s22 ∧
    s.end_layer_solve_result.eigenvalues = s'.end_layer_solve_result.eigenvalues ∧
    s.end_layer_solve_result.eigenvectors = s'.end_layer_solve_result.eigenvectors ∧
    s.end_layer_solve_result.omega_script_k_matrix
      = s'.end_layer_solve_result.omega_script_k_matrix ∧
    s.end_layer_thickness = s'.end_layer_thickness

end DerivedDefs

section ComplexRational

/-- Computable complex numbers with rational components, the scalar type used
to embed the arithmetic of `fmmax/_eig.py` exactly. -/
@[ext]
structure QC where
  re : ℚ
  im : ℚ
deriving DecidableEq

namespace QC

instance : Zero QC := ⟨⟨0, 0⟩⟩

instance : One QC := ⟨⟨1, 0⟩⟩

instance : Add QC := ⟨fun z w => ⟨z.re + w.re, z.im + w.im⟩⟩

instance : Neg QC := ⟨fun z => ⟨-z.re, -z.im⟩⟩

instance : Mul QC := ⟨fun z w => ⟨z.re * w.re - z.im * w.im, z.re * w.im + z.im * w.re⟩⟩

instance : Inv QC :=
  ⟨fun z => ⟨z.re / (z.re ^ 2 + z.im ^ 2), -z.im / (z.re ^ 2 + z.im ^ 2)⟩⟩

theorem zero_re : (0 : QC).re = 0 := rfl

theorem zero_im : (0 : QC).im = 0 := rfl

theorem one_re : (1 : QC).re = 1 := rfl

theorem one_im : (1 : QC).im = 0 := rfl

theorem add_re (z w : QC) : (z + w).re = z.re + w.re := rfl

theorem add_im (z w : QC) : (z + w).im = z.im + w.im := rfl

theorem neg_re (z : QC) : (-z).re = -z.re := rfl

theorem neg_im (z : QC) : (-z).im = -z.im := rfl

theorem mul_re (z w : QC) : (z * w).re = z.re * w.re - z.im * w.im := rfl

theorem mul_im (z w : QC) : (z * w).im = z.re * w.im + z.im * w.re := rfl

theorem inv_re (z : QC) : (z⁻¹).re = z.re / (z.re ^ 2 + z.im ^ 2) := rfl

theorem inv_im (z : QC) : (z⁻¹).im = -z.im / (z.re ^ 2 + z.im ^ 2) := rfl

instance : CommRing QC where
  add := (· + ·)
  add_assoc := by intros; ext <;> simp [add_re, add_im] <;> ring
  zero := 0
  zero_add := by intros; ext <;> simp [add_re, add_im, zero_re, zero_im]
  add_zero := by intros; ext <;> simp [add_re, add_im, zero_re, zero_im]
  add_comm := by intros; ext <;> simp [add_re, add_im] <;> ring
  mul := (· * ·)
  mul_assoc := by intros; ext <;> simp [mul_re, mul_im] <;> ring
  one := 1
  one_mul := by intros; ext <;> simp [mul_re, mul_im, one_re, one_im]
  mul_one := by intros; ext <;> simp [mul_re, mul_im, one_re, one_im]
  left_distrib := by intros; ext <;> simp [mul_re, mul_im, add_re, add_im] <;> ring
  right_distrib := by intros; ext <;> simp [mul_re, mul_im, add_re, add_im] <;> ring
  mul_comm := by intros; ext <;> simp [mul_re, mul_im] <;> ring
  zero_mul := by intros; ext <;> simp [mul_re, mul_im, zero_re, zero_im]
  mul_zero := by intros; ext <;> simp [mul_re, mul_im, zero_re, zero_im]
  neg := Neg.neg
  neg_add_cancel := by intros; ext <;> simp [add_re, add_im, neg_re, neg_im, zero_re, zero_im]
  nsmul := nsmulRec
  zsmul := zsmulRec

theorem normSq_pos_of_ne_zero (z : QC) (h : z ≠ 0) : 0 < z.re ^ 2 + z.im ^ 2 := by
  rcases eq_or_ne z.re 0 with hre | hre
  · have him : z.im ≠ 0 := by
      intro him
      exact h (by ext <;> simp [hre, him, zero_re, zero_im])
    have h1 : 0 < z.im ^ 2 := lt_of_le_of_ne (sq_nonneg _) (Ne.symm (pow_ne_zero 2 him))
    have h2 : (0 : ℚ) ≤ z.re ^ 2 := sq_nonneg _
    linarith
  · have h1 : 0 < z.re ^ 2 := lt_of_le_of_ne (sq_nonneg _) (Ne.symm (pow_ne_zero 2 hre))
    have h2 : (0 : ℚ) ≤ z.im ^ 2 := sq_nonneg _
    linarith

instance : Field QC where
  inv := Inv.inv
  exists_pair_ne := ⟨0, 1, by decide⟩
  mul_inv_cancel := by
    intro z h
    have hpos := normSq_pos_of_ne_zero z h
    have hne : z.re ^ 2 + z.im ^ 2 ≠ 0 := ne_of_gt hpos
    ext
    · simp only [mul_re, inv_re, inv_im, one_re]
      field_simp
      ring
    · simp only [mul_im, inv_re, inv_im, one_im]
      field_simp
      ring
  inv_zero := by ext <;> simp [inv_re, inv_im, zero_re, zero_im]
  qsmul := _
  nnqsmul := _

/-- Complex conjugation, embedding `jnp.conj` / `.conj`. -/
def conj (z : QC) : QC := ⟨z.re, -z.im⟩

/-- Squared magnitude, embedding `jnp.abs(z) ** 2` exactly (no square root is
ever taken by the code being modelled). -/
def normSq (z : QC) : ℚ := z.re ^ 2 + z.im ^ 2

/-- Division of a complex value by a real (rational) scalar, embedding the
broadcast division of a complex array by a real array. -/
def divR (z : QC) (r : ℚ) : QC := ⟨z.re / r, z.im / r⟩

/-- Embedding of a real scalar into `QC` (as `jnp.real` output re-entering
complex arithmetic). -/
def ofRat (r : ℚ) : QC := ⟨r, 0⟩

end QC

end ComplexRational

section Eig

/-- Default relative regularization constant `_EIG_EPS_RELATIVE = 1e-12`. -/
def EIG_EPS_RELATIVE : ℚ := 1 / 10 ^ 12

/-- Default regularization floor `_EIG_EPS_MINIMUM = 1e-24`. -/
def EIG_EPS_MINIMUM : ℚ := 1 / 10 ^ 24

/-- All index pairs of an `n × n` array, used to embed reductions over the
trailing two axes. -/
def allPairs (n : ℕ) : List (Fin n × Fin n) :=
  (List.finRange n).flatMap fun a => (List.finRange n).map fun b => (a, b)

/-- Embedding of `delta_eig = eigenvalues_i - eigenvalues_j`, where
`eigenvalues_i = eigenvalues[..., newaxis, :]` and
`eigenvalues_j = eigenvalues[..., :, newaxis]`; entry `(a, b)` is
`eigenvalues b - eigenvalues a`. -/
def deltaEig {n : ℕ} (ev : Fin n → QC) (a b : Fin n) : QC :=
  ev b - ev a

/-- Embedding of `eig_range_sq = jnp.amax(jnp.abs(delta_eig) ** 2, axis=(-2, -1))`
for one batch element.  The diagonal contributes the value `0`, so folding the
maximum from `0` agrees with `amax` for any nonempty dimension. -/
def eigRangeSq {n : ℕ} (ev : Fin n → QC) : ℚ :=
  (allPairs n).foldr (fun p m => max (QC.normSq (deltaEig ev p.1 p.2)) m) 0

/-- Embedding of `eps = jnp.maximum(eps_relative * eig_range_sq, _EIG_EPS_MINIMUM)`. -/
def eigEps {n : ℕ} (epsRelative : ℚ) (ev : Fin n → QC) : ℚ :=
  max (epsRelative * eigRangeSq ev) EIG_EPS_MINIMUM

/-- Embedding of the Lorentzian broadening before the diagonal is zeroed:
`f_broadened = delta_eig.conj() / (jnp.abs(delta_eig) ** 2 + eps)`. -/
def fBroadenedPre {n : ℕ} (epsRelative : ℚ) (ev : Fin n → QC) (a b : Fin n) : QC :=
  QC.divR (QC.conj (deltaEig ev a b)) (QC.normSq (deltaEig ev a b) + eigEps epsRelative ev)

/-- Embedding of `f_broadened` after `f_broadened.at[..., i, i].set(0)`: the
diagonal entries are set exactly to zero. -/
def fBroadened {n : ℕ} (epsRelative : ℚ) (ev : Fin n → QC) (a b : Fin n) : QC :=
  if a = b then 0 else fBroadenedPre epsRelative ev a b

/-- Modelled from the spec: `_misc.matrix_adjoint` (its module is not among the
provided sources) is the conjugate transpose. -/
def matrixAdjoint {n : ℕ} (M : Matrix (Fin n) (Fin n) QC) : Matrix (Fin n) (Fin n) QC :=
  Matrix.of fun i j => QC.conj (M j i)

/-- Entrywise complex conjugation of a matrix (`jnp.conj`). -/
def conjMat {n : ℕ} (M : Matrix (Fin n) (Fin n) QC) : Matrix (Fin n) (Fin n) QC :=
  Matrix.of fun i j => QC.conj (M i j)

/-- Embedding of `jnp.where(eye_mask, jnp.real(X), 0.0)`: keep the real part on
the diagonal and zero elsewhere. -/
def realMaskDiag {n : ℕ} (X : Matrix (Fin n) (Fin n) QC) : Matrix (Fin n) (Fin n) QC :=
  Matrix.of fun i j => if i = j then QC.ofRat (X i j).re else 0

/-- Entrywise (Hadamard) product of matrices, embedding broadcast `*`. -/
def hadamard {n : ℕ} (X Y : Matrix (Fin n) (Fin n) QC) : Matrix (Fin n) (Fin n) QC :=
  Matrix.of fun i j => X i j * Y i j

/-- Embedding of the matrix `rhs` assembled in `_eig_bwd` (equation 4.77 of
[2019 Boeddeker]) for one batch element. -/
def eigBwdRhs {n : ℕ} (epsRelative : ℚ) (ev : Fin n → QC)
    (V : Matrix (Fin n) (Fin n) QC) (gradEv : Fin n → QC)
    (gradV : Matrix (Fin n) (Fin n) QC) : Matrix (Fin n) (Fin n) QC :=
  let gradEvConj : Fin n → QC := fun i => QC.conj (gradEv i)
  let gradVConj := conjMat gradV
  let vH := matrixAdjoint V
  let fConj := Matrix.of fun i j => QC.conj (fBroadened epsRelative ev i j)
  (Matrix.diagonal gradEvConj + hadamard fConj (vH * gradVConj)
      - hadamard fConj (vH * V) * realMaskDiag (vH * gradVConj)) * vH

/-- Embedding of the full backward pass of `eig` for one batch element:
`grad_matrix = jnp.conj(jnp.linalg.solve(eigenvectors_H, rhs))`. -/
def eigBwdGrad {n : ℕ} (epsRelative : ℚ) (ev : Fin n → QC)
    (V : Matrix (Fin n) (Fin n) QC) (gradEv : Fin n → QC)
    (gradV : Matrix (Fin n) (Fin n) QC) : Matrix (Fin n) (Fin n) QC :=
  conjMat (msolve (matrixAdjoint V) (eigBwdRhs epsRelative ev V gradEv gradV))

/-- Batched `eps`: `jnp.amax` is taken over only the trailing two axes
(`axis=(-2, -1)`), so each batch element's scale comes from its own
eigenvalue differences. -/
def batchedEigEps {m n : ℕ} (epsRelative : ℚ) (ev : Fin m → Fin n → QC) : Fin m → ℚ :=
  fun b => eigEps epsRelative (ev b)

/-- Batched backward pass of `eig`: every operation in `_eig_bwd` acts
elementwise over the leading batch axis. -/
def batchedEigBwdGrad {m n : ℕ} (epsRelative : ℚ) (ev : Fin m → Fin n → QC)
    (V : Fin m → Matrix (Fin n) (Fin n) QC) (gradEv : Fin m → Fin n → QC)
    (gradV : Fin m → Matrix (Fin n) (Fin n) QC) : Fin m → Matrix (Fin n) (Fin n) QC :=
  fun b => eigBwdGrad epsRelative (ev b) (V b) (gradEv b) (gradV b)

/-- Embedding of the forward evaluation of `eig`: the code reads
`del eps_relative; return _eig(matrix)`, where `_eig` delegates to an external
eigendecomposition backend, modelled as an opaque function argument. -/
def eigForward {n : ℕ}
    (eigImpl : Matrix (Fin n) (Fin n) QC → (Fin n → QC) × Matrix (Fin n) (Fin n) QC)
    (matrix : Matrix (Fin n) (Fin n) QC) (epsRelative : ℚ) :
    (Fin n → QC) × Matrix (Fin n) (Fin n) QC :=
  eigImpl matrix

end Eig

section ConcreteWitnessData

/-- Concrete phase function on integer thicknesses used to instantiate
theorems: `phaseZQ q t = q ^ t` (with zero protected), a genuine
homomorphism in the thickness like the true `exp(1j * q * d)`. -/
def phaseZQ (q : ℚ) (t : ℤ) : ℚ :=
  (if q = 0 then 1 else q) ^ t


/-- Trivial phase function (constantly one), also a homomorphism. -/
def phaseOne (q : ℚ) (t : ℚ) : ℚ := 1


/-- Concrete layer solve result with trivial eigen-data and no tangent field. -/
def layerW : LayerSolveResult 1 ℚ :=
  { eigenvalues := fun _ => 1
    eigenvectors := 1
    omega_script_k_matrix := 1
    tangent_vector_field := none }

/-- Concrete layer solve result carrying a tangent field. -/
def layerT : LayerSolveResult 1 ℚ :=
  { eigenvalues := fun _ => 1
    eigenvectors := 1
    omega_script_k_matrix := 1
    tangent_vector_field := some () }

/-- Concrete layer solve result with eigenvalue `2`, giving a nontrivial
phase under `phaseZQ`. -/
def layerQ2 : LayerSolveResult 1 ℚ :=
  { eigenvalues := fun _ => 2
    eigenvectors := 1
    omega_script_k_matrix := 1
    tangent_vector_field := none }

/-- Concrete batch inputs: element 0 fixed, element 1 perturbed. -/
def evBatchA : Fin 2 → Fin 1 → QC := fun b _ => if b = 0 then ⟨0, 0⟩ else ⟨1, 0⟩

/-- Concrete batch inputs differing from `evBatchA` only at element 1. -/
def evBatchB : Fin 2 → Fin 1 → QC := fun b _ => if b = 0 then ⟨0, 0⟩ else ⟨5, 0⟩

/-- Concrete identity-layer scattering matrix for instantiating the
associativity theorem. -/
def sW : ScatteringMatrix 1 ℚ ℚ := idSMat layerW 0

/-- Identity block quadruple. -/
def IdB : SBlocks 1 ℚ := ⟨1, 0, 0, 1⟩

end ConcreteWitnessData

section BasicLemmas

variable {n : ℕ} {K : Type} [Field K] [DecidableEq K]

theorem minv_eq_inv (M : Matrix (Fin n) (Fin n) K) : minv M = M⁻¹ := by
  rw [Matrix.inv_def, Ring.inverse_eq_inv, minv]

theorem msolve_eq (A B : Matrix (Fin n) (Fin n) K) : msolve A B = A⁻¹ * B := by
  rw [msolve, minv_eq_inv]

theorem rowScale_eq_diagonal_mul (v : Fin n → K) (M : Matrix (Fin n) (Fin n) K) :
    rowScale v M = Matrix.diagonal v * M := by
  ext i j
  simp [rowScale, Matrix.diagonal_mul]

theorem colScale_eq_mul_diagonal (M : Matrix (Fin n) (Fin n) K) (v : Fin n → K) :
    colScale M v = M * Matrix.diagonal v := by
  ext i j
  simp [colScale, Matrix.mul_diagonal]

theorem mdiag_ones : mdiag (fun _ : Fin n => (1 : K)) = 1 := by
  simp [mdiag]

theorem phaseZQ_hom (q : ℚ) (t t' : ℤ) : phaseZQ q (t + t') = phaseZQ q t * phaseZQ q t' := by
  have hne : (if q = 0 then 1 else q) ≠ 0 := by
    split <;> simp_all
  simp [phaseZQ, zpow_add₀ hne]

theorem phaseOne_hom (q : ℚ) (t t' : ℚ) : phaseOne q (t + t') = phaseOne q t * phaseOne q t' := by
  simp [phaseOne]

end BasicLemmas

section ClaimC1

/-- Claim C1: for every single eigenmode solution and thickness,
`stack_s_matrix([solve], [thickness])` returns a scattering matrix with
`s11 = s22 = I`, `s12 = s21 = 0`, and both boundary layer references denote
that single layer (with its tangent vector field stripped, as
`_stack_s_matrices` always does). -/
theorem stack_s_matrix_single_layer_identity {n : ℕ} {K A : Type} [Field K] [DecidableEq K]
    [AddCommGroup A] (phase : K → A → K) (l : LayerSolveResult n K) (t : A) :
    stackSMatrixE phase [l] [t] =
      .ok { s11 := 1
            s12 := 0
            s21 := 0
            s22 := 1
            start_layer_solve_result := stripTangent l
            start_layer_thickness := t
            end_layer_solve_result := stripTangent l
            end_layer_thickness := t } := by
  simp [stackSMatrixE, stackSMatrixCore, broadcastResult, idSMat, mdiag_ones]

end ClaimC1

section ClaimC5

/-- Claim C5: `prepend_layer` coincides with block-swapping (exchanging
`s11 ↔ s22`, `s12 ↔ s21`, start ↔ end), appending the layer, and swapping
back. -/
theorem prepend_layer_eq_swap_append_swap {n : ℕ} {K A : Type} [Field K] [DecidableEq K]
    [AddCommGroup A] (phase : K → A → K) (s : ScatteringMatrix n K A)
    (l' : LayerSolveResult n K) (t' : A) :
    prependLayer phase s l' t' = reverseSMatrix (appendLayer phase (reverseSMatrix s) l' t') :=
  rfl

end ClaimC5

section ClaimC9

/-- Claim C9: the forward evaluation of `eig` is independent of the
`eps_relative` argument (the code deletes it before delegating to the backend);
only the backward pass uses it. -/
theorem eig_forward_ignores_eps_relative {n : ℕ}
    (eigImpl : Matrix (Fin n) (Fin n) QC → (Fin n → QC) × Matrix (Fin n) (Fin n) QC)
    (matrix : Matrix (Fin n) (Fin n) QC) (e1 e2 : ℚ) :
    eigForward eigImpl matrix e1 = eigForward eigImpl matrix e2 :=
  rfl

end ClaimC9

section ClaimC2

/-- Claim C2: in the backward pass of `eig`, the reciprocal eigenvalue
differences are replaced by the Lorentzian broadening
`conj(delta) / (|delta|^2 + eps)` off the diagonal, with the diagonal set
exactly to zero, where `eps = max(eps_relative * max_ij |delta_ij|^2,
eps_minimum)` and the default constants are `1e-12` and `1e-24`. -/
theorem eig_bwd_broadening_matches_spec {n : ℕ} (ev : Fin n → QC) :
    fBroadened EIG_EPS_RELATIVE ev =
      (fun a b =>
        if a = b then 0
        else
          QC.divR (QC.conj (ev b - ev a))
            (QC.normSq (ev b - ev a) +
              max ((1 / 10 ^ 12) * eigRangeSq ev) (1 / 10 ^ 24))) ∧
    EIG_EPS_RELATIVE = 1 / 10 ^ 12 ∧ EIG_EPS_MINIMUM = 1 / 10 ^ 24 := by
  refine ⟨?_, rfl, rfl⟩
  funext a b
  simp [fBroadened, fBroadenedPre, eigEps, deltaEig, EIG_EPS_RELATIVE, EIG_EPS_MINIMUM]

end ClaimC2

section ClaimC7

/-- Claim C7: when the sequences of layer solve results and thicknesses have
different lengths (or, for the scan variant, the leading batch dimension
differs from the number of thicknesses), an input-validation error naming the
two mismatched sizes is raised before any numeric work; when the lengths
agree, no such error is raised. -/
theorem stack_length_validation {n : ℕ} {K A : Type} [Field K] [DecidableEq K]
    [AddCommGroup A] (phase : K → A → K) (solves : List (LayerSolveResult n K)) (ts : List A) :
    (solves.length ≠ ts.length →
      stackSMatricesE phase solves ts =
          .error (.lengthMismatch solves.length ts.length) ∧
        stackSMatrixScanE phase solves ts =
          .error (.scanLengthMismatch solves.length ts.length)) ∧
    (solves.length = ts.length →
      (∀ a b : ℕ, stackSMatricesE phase solves ts ≠ .error (.lengthMismatch a b)) ∧
        (∀ a b : ℕ, stackSMatrixScanE phase solves ts ≠ .error (.scanLengthMismatch a b))) := by
  constructor
  · intro h
    constructor
    · simp [stackSMatricesE, h]
    · simp [stackSMatrixScanE, h]
  · intro h
    constructor
    · intro a b
      cases solves with
      | nil =>
        cases ts with
        | nil => simp [stackSMatricesE]
        | cons t ts' => simp at h
      | cons l ls =>
        cases ts with
        | nil => simp at h
        | cons t ts' => simp [stackSMatricesE, h]
    · intro a b
      cases solves with
      | nil =>
        cases ts with
        | nil => simp [stackSMatrixScanE]
        | cons t ts' => simp at h
      | cons l ls =>
        cases ts with
        | nil => simp at h
        | cons t ts' => simp [stackSMatrixScanE, h]

/-- Concrete instantiation of the validation theorem: a one-layer /
zero-thickness mismatch raises the validation error naming sizes 1 and 0, and
a matching pair of lengths never produces such an error. -/
theorem stack_length_validation_witness :
    (stackSMatricesE phaseOne [layerW] ([] : List ℚ) =
        .error (.lengthMismatch 1 0) ∧
      stackSMatrixScanE phaseOne [layerW] ([] : List ℚ) =
        .error (.scanLengthMismatch 1 0)) ∧
    stackSMatricesE phaseOne [layerW] [(0 : ℚ)] ≠ .error (.lengthMismatch 1 1) := by
  refine ⟨(stack_length_validation phaseOne [layerW] []).1 (by decide), ?_⟩
  exact ((stack_length_validation phaseOne [layerW] [(0 : ℚ)]).2 (by decide)).1 1 1

end ClaimC7

section ClaimC10

variable {n : ℕ} {K A : Type} [Field K] [DecidableEq K] [AddCommGroup A]


theorem refsStripped_idSMat (l : LayerSolveResult n K) (t : A)
    (hl : l.tangent_vector_field = none) : RefsStripped (idSMat l t) :=
  ⟨hl, hl⟩

theorem refsStripped_appendLayer (phase : K → A → K) (s : ScatteringMatrix n K A)
    (l' : LayerSolveResult n K) (t' : A) (hs : RefsStripped s)
    (hl : l'.tangent_vector_field = none) :
    RefsStripped (appendLayer phase s l' t') :=
  ⟨hs.1, hl⟩

theorem refsStripped_scanCollect (phase : K → A → K)
    (rest : List (LayerSolveResult n K × A)) :
    ∀ s : ScatteringMatrix n K A, RefsStripped s →
      (∀ p ∈ rest, p.1.tangent_vector_field = none) →
      ∀ x ∈ scanCollect phase s rest, RefsStripped x := by
  induction rest with
  | nil => intro s hs hrest x hx; simp [scanCollect] at hx
  | cons p rest ih =>
    intro s hs hrest x hx
    obtain ⟨l, t⟩ := p
    simp only [scanCollect, List.mem_cons] at hx
    have hlt : l.tangent_vector_field = none := hrest (l, t) (by simp)
    rcases hx with rfl | hx
    · exact refsStripped_appendLayer phase s l t hs hlt
    · exact ih (appendLayer phase s l t)
        (refsStripped_appendLayer phase s l t hs hlt)
        (fun q hq => hrest q (by simp [hq])) x hx

theorem refsStripped_scanFold (phase : K → A → K)
    (rest : List (LayerSolveResult n K × A)) :
    ∀ s : ScatteringMatrix n K A, RefsStripped s →
      (∀ p ∈ rest, p.1.tangent_vector_field = none) →
      RefsStripped (scanFold phase s rest) := by
  induction rest with
  | nil => intro s hs _; simpa [scanFold] using hs
  | cons p rest ih =>
    intro s hs hrest
    obtain ⟨l, t⟩ := p
    have hlt : l.tangent_vector_field = none := hrest (l, t) (by simp)
    exact ih (appendLayer phase s l t)
      (refsStripped_appendLayer phase s l t hs hlt)
      (fun q hq => hrest q (by simp [hq]))

theorem refsStripped_pair (phase : K → A → K) (l0 : LayerSolveResult n K) (t0 : A)
    (l1 : LayerSolveResult n K) (t1 : A) (h0 : l0.tangent_vector_field = none)
    (h1 : l1.tangent_vector_field = none) :
    RefsStripped (pairSMatrix phase l0 t0 l1 t1) :=
  ⟨h0, h1⟩

theorem refsStripped_stackSMatricesCore (phase : K → A → K) (l0 : LayerSolveResult n K)
    (t0 : A) (rest : List (LayerSolveResult n K × A))
    (h0 : l0.tangent_vector_field = none)
    (hrest : ∀ p ∈ rest, p.1.tangent_vector_field = none) :
    ∀ s ∈ stackSMatricesCore phase l0 t0 rest, RefsStripped s := by
  cases rest with
  | nil =>
    intro s hs
    simp only [stackSMatricesCore, List.mem_singleton] at hs
    subst hs
    exact refsStripped_idSMat l0 t0 h0
  | cons p rest =>
    obtain ⟨l1, t1⟩ := p
    intro s hs
    have h1 : l1.tangent_vector_field = none := hrest (l1, t1) (by simp)
    simp only [stackSMatricesCore, List.mem_cons] at hs
    rcases hs with rfl | rfl | hs
    · exact refsStripped_idSMat l0 t0 h0
    · exact refsStripped_pair phase l0 t0 l1 t1 h0 h1
    · exact refsStripped_scanCollect phase rest (pairSMatrix phase l0 t0 l1 t1)
        (refsStripped_pair phase l0 t0 l1 t1 h0 h1)
        (fun q hq => hrest q (by simp [hq])) s hs

theorem refsStripped_stackSMatrixCore (phase : K → A → K) (l0 : LayerSolveResult n K)
    (t0 : A) (rest : List (LayerSolveResult n K × A))
    (h0 : l0.tangent_vector_field = none)
    (hrest : ∀ p ∈ rest, p.1.tangent_vector_field = none) :
    RefsStripped (stackSMatrixCore phase l0 t0 rest) := by
  cases rest with
  | nil => exact refsStripped_idSMat l0 t0 h0
  | cons p rest =>
    obtain ⟨l1, t1⟩ := p
    have h1 : l1.tangent_vector_field = none := hrest (l1, t1) (by simp)
    exact refsStripped_scanFold phase rest (pairSMatrix phase l0 t0 l1 t1)
      (refsStripped_pair phase l0 t0 l1 t1 h0 h1)
      (fun q hq => hrest q (by simp [hq]))

theorem refsStripped_reverse (s : ScatteringMatrix n K A) (hs : RefsStripped s) :
    RefsStripped (reverseSMatrix s) :=
  ⟨hs.2, hs.1⟩

theorem zip_strip_tangent_none (ls : List (LayerSolveResult n K)) (ts : List A) :
    ∀ p ∈ (ls.map stripTangent).zip ts, p.1.tangent_vector_field = none := by
  intro p hp
  have h1 : p.1 ∈ ls.map stripTangent := (List.of_mem_zip hp).1
  obtain ⟨l, _, hl⟩ := List.mem_map.mp h1
  rw [← hl]
  rfl

theorem stackSMatricesE_refsStripped (phase : K → A → K)
    (solves : List (LayerSolveResult n K)) (ts : List A)
    (res : List (ScatteringMatrix n K A))
    (h : stackSMatricesE phase solves ts = .ok res) :
    ∀ s ∈ res, RefsStripped s := by
  unfold stackSMatricesE at h
  split at h
  · exact absurd h (by simp)
  · rename_i hlen
    revert h
    cases hsolves : (solves.map stripTangent).map broadcastResult with
    | nil => intro h; exact absurd h (by simp)
    | cons l0 ls =>
      cases ts with
      | nil => intro h; exact absurd h (by simp)
      | cons t0 ts' =>
        intro h
        have hres : res = stackSMatricesCore phase l0 t0 (ls.zip ts') := by
          simpa using h.symm
        subst hres
        have hmap : (solves.map stripTangent).map broadcastResult = solves.map stripTangent := by
          simp [broadcastResult]
        rw [hmap] at hsolves
        have h0 : l0.tangent_vector_field = none := by
          rcases solves with _ | ⟨a, as⟩
          · simp at hsolves
          · simp only [List.map_cons, List.cons.injEq] at hsolves
            rw [← hsolves.1]
            rfl
        have hls : ∀ p ∈ ls.zip ts', p.1.tangent_vector_field = none := by
          rcases solves with _ | ⟨a, as⟩
          · simp at hsolves
          · simp only [List.map_cons, List.cons.injEq] at hsolves
            rw [← hsolves.2]
            exact zip_strip_tangent_none as ts'
        exact refsStripped_stackSMatricesCore phase l0 t0 (ls.zip ts') h0 hls

/-- Claim C10: every scattering matrix returned by `stack_s_matrix` and
`stack_s_matrices_interior` stores boundary solve results whose tangent vector
field is `None`, even when the caller's solve results carried one; the stored
solve results are therefore not identical to the supplied objects. -/
theorem stack_tangent_vector_field_stripped (phase : K → A → K)
    (solves : List (LayerSolveResult n K)) (ts : List A) :
    (∀ s : ScatteringMatrix n K A, stackSMatrixE phase solves ts = .ok s →
      (s.start_layer_solve_result.tangent_vector_field = none ∧
        s.end_layer_solve_result.tangent_vector_field = none) ∧
      ∀ l ∈ solves, l.tangent_vector_field ≠ none →
        s.start_layer_solve_result ≠ l ∧ s.end_layer_solve_result ≠ l) ∧
    (∀ res, stackSMatricesInteriorE phase solves ts = .ok res →
      ∀ p ∈ res,
        (p.1.start_layer_solve_result.tangent_vector_field = none ∧
          p.1.end_layer_solve_result.tangent_vector_field = none) ∧
        (p.2.start_layer_solve_result.tangent_vector_field = none ∧
          p.2.end_layer_solve_result.tangent_vector_field = none) ∧
        ∀ l ∈ solves, l.tangent_vector_field ≠ none →
          p.1.start_layer_solve_result ≠ l ∧ p.1.end_layer_solve_result ≠ l ∧
            p.2.start_layer_solve_result ≠ l ∧ p.2.end_layer_solve_result ≠ l) := by
  have hne : ∀ (x : LayerSolveResult n K), x.tangent_vector_field = none →
      ∀ l : LayerSolveResult n K, l.tangent_vector_field ≠ none → x ≠ l := by
    intro x hx l hl he
    exact hl (he ▸ hx)
  constructor
  · intro s hs
    have hstripped : RefsStripped s := by
      unfold stackSMatrixE at hs
      split at hs
      · exact absurd hs (by simp)
      · rename_i hlen
        revert hs
        cases hsolves : (solves.map stripTangent).map broadcastResult with
        | nil => intro hs; exact absurd hs (by simp)
        | cons l0 ls =>
          cases ts with
          | nil => intro hs; exact absurd hs (by simp)
          | cons t0 ts' =>
            intro hs
            have hres : s = stackSMatrixCore phase l0 t0 (ls.zip ts') := by
              simpa using hs.symm
            subst hres
            have hmap : (solves.map stripTangent).map broadcastResult
                = solves.map stripTangent := by
              simp [broadcastResult]
            rw [hmap] at hsolves
            have h0 : l0.tangent_vector_field = none := by
              rcases solves with _ | ⟨a, as⟩
              · simp at hsolves
              · simp only [List.map_cons, List.cons.injEq] at hsolves
                rw [← hsolves.1]
                rfl
            have hls : ∀ p ∈ ls.zip ts', p.1.tangent_vector_field = none := by
              rcases solves with _ | ⟨a, as⟩
              · simp at hsolves
              · simp only [List.map_cons, List.cons.injEq] at hsolves
                rw [← hsolves.2]
                exact zip_strip_tangent_none as ts'
            exact refsStripped_stackSMatrixCore phase l0 t0 (ls.zip ts') h0 hls
    exact ⟨hstripped, fun l _ hl =>
      ⟨hne _ hstripped.1 l hl, hne _ hstripped.2 l hl⟩⟩
  · intro res hres p hp
    unfold stackSMatricesInteriorE at hres
    revert hres
    cases hbefore : stackSMatricesE phase solves ts with
    | error e => intro hres; exact absurd hres (by simp)
    | ok before =>
      cases hrev : stackSMatricesE phase solves.reverse ts.reverse with
      | error e => intro hres; exact absurd hres (by simp)
      | ok rev =>
        intro hres
        have hres2 : res = before.zip ((rev.reverse).map reverseSMatrix) := by
          simpa using hres.symm
        subst hres2
        have hp1 : p.1 ∈ before := (List.of_mem_zip hp).1
        have hp2 : p.2 ∈ (rev.reverse).map reverseSMatrix := (List.of_mem_zip hp).2
        have hb : RefsStripped p.1 :=
          stackSMatricesE_refsStripped phase solves ts before hbefore p.1 hp1
        have ha : RefsStripped p.2 := by
          obtain ⟨q, hq, hq2⟩ := List.mem_map.mp hp2
          have hq3 : q ∈ rev := List.mem_reverse.mp hq
          rw [← hq2]
          exact refsStripped_reverse q
            (stackSMatricesE_refsStripped phase solves.reverse ts.reverse rev hrev q hq3)
        exact ⟨⟨hb.1, hb.2⟩, ⟨ha.1, ha.2⟩, fun l _ hl =>
          ⟨hne _ hb.1 l hl, hne _ hb.2 l hl, hne _ ha.1 l hl, hne _ ha.2 l hl⟩⟩

/-- Concrete instantiation: a single layer carrying a tangent field is stored
stripped, and the stored reference differs from the supplied object. -/
theorem stack_tangent_vector_field_stripped_witness :
    (idSMat (stripTangent layerT) (0 : ℚ)).start_layer_solve_result.tangent_vector_field
        = none ∧
      (idSMat (stripTangent layerT) (0 : ℚ)).start_layer_solve_result ≠ layerT := by
  have h := (stack_tangent_vector_field_stripped phaseOne [layerT] [(0 : ℚ)]).1
    (idSMat (stripTangent layerT) (0 : ℚ)) rfl
  exact ⟨(h.1).1, (h.2 layerT (by simp) (by decide)).1⟩

end ClaimC10

section ClaimC3

variable {n : ℕ} {K A : Type} [Field K] [DecidableEq K] [AddCommGroup A]

theorem rowScale_zero (v : Fin n → K) : rowScale v (0 : Matrix (Fin n) (Fin n) K) = 0 := by
  ext i j
  simp [rowScale]

theorem rowScale_one (v : Fin n → K) :
    rowScale v (1 : Matrix (Fin n) (Fin n) K) = mdiag v := by
  ext i j
  by_cases h : i = j <;> simp [rowScale, mdiag, Matrix.diagonal, Matrix.one_apply, h]

theorem map_broadcastResult (ls : List (LayerSolveResult n K)) :
    ls.map broadcastResult = ls := by
  induction ls with
  | nil => rfl
  | cons a as ih => simp [broadcastResult, ih]

/-- The two-layer matrix of `_pair_s_matrix` coincides with appending the
second layer to the single-layer identity matrix, as noted in the comments of
`_pair_s_matrix` itself. -/
theorem pair_eq_append_idSMat (phase : K → A → K) (l0 : LayerSolveResult n K) (t0 : A)
    (l1 : LayerSolveResult n K) (t1 : A) :
    pairSMatrix phase l0 t0 l1 t1 = appendLayer phase (idSMat l0 t0) l1 t1 := by
  simp only [pairSMatrix, appendLayer, extendSMatrix, idSMat, toBlocks, rowScale_zero,
    zero_mul, sub_zero, mdiag_ones, rowScale_one, one_mul, add_zero, zero_sub]


theorem i11M_congr (l1 l1' l2 l2' : LayerSolveResult n K)
    (he : l1.eigenvalues = l1'.eigenvalues) (hv : l1.eigenvectors = l1'.eigenvectors)
    (hw : l1.omega_script_k_matrix = l1'.omega_script_k_matrix)
    (he2 : l2.eigenvalues = l2'.eigenvalues) (hv2 : l2.eigenvectors = l2'.eigenvectors)
    (hw2 : l2.omega_script_k_matrix = l2'.omega_script_k_matrix) :
    i11M l1 l2 = i11M l1' l2' := by
  simp only [i11M, interfaceTerm1, interfaceTerm2, he, hv, hw, he2, hv2, hw2]

theorem i12M_congr (l1 l1' l2 l2' : LayerSolveResult n K)
    (he : l1.eigenvalues = l1'.eigenvalues) (hv : l1.eigenvectors = l1'.eigenvectors)
    (hw : l1.omega_script_k_matrix = l1'.omega_script_k_matrix)
    (he2 : l2.eigenvalues = l2'.eigenvalues) (hv2 : l2.eigenvectors = l2'.eigenvectors)
    (hw2 : l2.omega_script_k_matrix = l2'.omega_script_k_matrix) :
    i12M l1 l2 = i12M l1' l2' := by
  simp only [i12M, interfaceTerm1, interfaceTerm2, he, hv, hw, he2, hv2, hw2]

theorem appendLayer_blocksEndEq (phase : K → A → K) (s s' : ScatteringMatrix n K A)
    (hs : BlocksEndEq s s') (l l' : LayerSolveResult n K) (t : A)
    (he : l.eigenvalues = l'.eigenvalues) (hv : l.eigenvectors = l'.eigenvectors)
    (hw : l.omega_script_k_matrix = l'.omega_script_k_matrix) :
    BlocksEndEq (appendLayer phase s l t) (appendLayer phase s' l' t) := by
  obtain ⟨h11, h12, h21, h22, hee, hev, hew, het⟩ := hs
  have hi1 : i11M s.end_layer_solve_result l = i11M s'.end_layer_solve_result l' :=
    i11M_congr _ _ _ _ hee hev hew he hv hw
  have hi2 : i12M s.end_layer_solve_result l = i12M s'.end_layer_solve_result l' :=
    i12M_congr _ _ _ _ hee hev hew he hv hw
  have hf : fdVec phase s.end_layer_solve_result s.end_layer_thickness
      = fdVec phase s'.end_layer_solve_result s'.end_layer_thickness := by
    funext i
    simp only [fdVec]
    rw [hee, het]
  have hfn : fdVec phase l t = fdVec phase l' t := by
    funext i
    simp only [fdVec]
    rw [he]
  refine ⟨?_, ?_, ?_, ?_, he, hv, hw, rfl⟩ <;>
    simp only [appendLayer, extendSMatrix, toBlocks, hi1, hi2, hf, hfn, h11, h12, h21, h22]

theorem stripTangent_eigenvalues (l : LayerSolveResult n K) :
    (stripTangent l).eigenvalues = l.eigenvalues := rfl

theorem stripTangent_eigenvectors (l : LayerSolveResult n K) :
    (stripTangent l).eigenvectors = l.eigenvectors := rfl

theorem stripTangent_omega (l : LayerSolveResult n K) :
    (stripTangent l).omega_script_k_matrix = l.omega_script_k_matrix := rfl

theorem scanFold_strip_blocksEndEq (phase : K → A → K) :
    ∀ (rest : List (LayerSolveResult n K × A)) (s s' : ScatteringMatrix n K A),
      BlocksEndEq s s' →
      BlocksEndEq (scanFold phase s (rest.map (Prod.map stripTangent id)))
        (scanFold phase s' rest) := by
  intro rest
  induction rest with
  | nil => intro s s' hs; simpa [scanFold] using hs
  | cons p rest ih =>
    intro s s' hs
    obtain ⟨l, t⟩ := p
    simp only [List.map_cons, Prod.map, id, scanFold]
    exact ih (appendLayer phase s (stripTangent l) t) (appendLayer phase s' l t)
      (appendLayer_blocksEndEq phase s s' hs (stripTangent l) l t rfl rfl rfl)

theorem idSMat_strip_blocksEndEq (l0 : LayerSolveResult n K) (t0 : A) :
    BlocksEndEq (idSMat (n := n) (K := K) (A := A) (stripTangent l0) t0) (idSMat l0 t0) :=
  ⟨rfl, rfl, rfl, rfl, rfl, rfl, rfl, rfl⟩

theorem stackCore_scanCore_blocksEndEq (phase : K → A → K) (l0 : LayerSolveResult n K)
    (t0 : A) (rest : List (LayerSolveResult n K × A)) :
    BlocksEndEq
      (stackSMatrixCore phase (stripTangent l0) t0 (rest.map (Prod.map stripTangent id)))
      (stackSMatrixScanCore phase l0 t0 rest) := by
  cases rest with
  | nil => exact idSMat_strip_blocksEndEq l0 t0
  | cons p rest =>
    obtain ⟨l1, t1⟩ := p
    simp only [List.map_cons, Prod.map, id, stackSMatrixCore, stackSMatrixScanCore, scanFold,
      pair_eq_append_idSMat]
    exact scanFold_strip_blocksEndEq phase rest _ _
      (appendLayer_blocksEndEq phase (idSMat (stripTangent l0) t0) (idSMat l0 t0)
        (idSMat_strip_blocksEndEq l0 t0) (stripTangent l1) l1 t1 rfl rfl rfl)

/-- Claim C3: `stack_s_matrix_scan` applied to the same layers (pre-stacked
along the leading axis, here the same list) produces the same final
scattering-matrix blocks as the sequence-based reduction `stack_s_matrix`. -/
theorem stack_s_matrix_scan_matches_stack {n : ℕ} {K A : Type} [Field K] [DecidableEq K]
    [AddCommGroup A] (phase : K → A → K) (l0 : LayerSolveResult n K)
    (ls : List (LayerSolveResult n K)) (t0 : A) (ts : List A)
    (h : ls.length = ts.length) :
    ∃ s s' : ScatteringMatrix n K A,
      stackSMatrixE phase (l0 :: ls) (t0 :: ts) = .ok s ∧
        stackSMatrixScanE phase (l0 :: ls) (t0 :: ts) = .ok s' ∧
        s.s11 = s'.s11 ∧ s.s12 = s'.s12 ∧ s.s21 = s'.s21 ∧ s.s22 = s'.s22 := by
  refine ⟨stackSMatrixCore phase (stripTangent l0) t0 ((ls.map stripTangent).zip ts),
    stackSMatrixScanCore phase l0 t0 (ls.zip ts), ?_, ?_, ?_⟩
  · simp only [stackSMatrixE, map_broadcastResult, List.map_cons]
    rw [if_neg (by simp [h])]
    simp [broadcastResult]
  · simp only [stackSMatrixScanE]
    rw [if_neg (by simp [h])]
  · have hzip : (ls.map stripTangent).zip ts = (ls.zip ts).map (Prod.map stripTangent id) := by
      simp [List.zip_map_left]
    rw [hzip]
    have hb := stackCore_scanCore_blocksEndEq phase l0 t0 (ls.zip ts)
    exact ⟨hb.1, hb.2.1, hb.2.2.1, hb.2.2.2.1⟩

/-- Concrete instantiation of the scan/stack agreement for a two-layer stack. -/
theorem stack_s_matrix_scan_matches_stack_witness :
    ∃ s s' : ScatteringMatrix 1 ℚ ℤ,
      stackSMatrixE phaseZQ [layerW, layerQ2] [(0 : ℤ), 1] = .ok s ∧
        stackSMatrixScanE phaseZQ [layerW, layerQ2] [(0 : ℤ), 1] = .ok s' ∧
        s.s11 = s'.s11 ∧ s.s12 = s'.s12 ∧ s.s21 = s'.s21 ∧ s.s22 = s'.s22 :=
  stack_s_matrix_scan_matches_stack phaseZQ layerW [layerQ2] 0 [1] (by decide)

end ClaimC3

section ClaimC4

variable {n : ℕ} {K A : Type} [Field K] [DecidableEq K] [AddCommGroup A]


/-- Rewriting the end thickness after an append equals appending with the new
thickness, because the appended layer's thickness enters only through the
column scalings of `s12` and `s22` by `fd_next`. -/
theorem setEnd_appendLayer (phase : K → A → K)
    (hom : ∀ q t t', phase q (t + t') = phase q t * phase q t')
    (s : ScatteringMatrix n K A) (l : LayerSolveResult n K) (t t2 : A) :
    setEndLayerThickness phase (appendLayer phase s l t) t2 = appendLayer phase s l t2 := by
  have hfd : (fun i => fdVec phase l t i * phase (l.eigenvalues i) (t2 - t))
      = fdVec phase l t2 := by
    funext i
    rw [fdVec, fdVec, ← hom]
    congr 1
    abel
  have hdiag : Matrix.diagonal (fdVec phase l t)
        * Matrix.diagonal (fun i => phase (l.eigenvalues i) (t2 - t))
      = Matrix.diagonal (fdVec phase l t2) := by
    rw [Matrix.diagonal_mul_diagonal]
    exact congrArg Matrix.diagonal hfd
  have key : ∀ T M : Matrix (Fin n) (Fin n) K,
      msolve T (M * Matrix.diagonal (fdVec phase l t))
          * Matrix.diagonal (fun i => phase (l.eigenvalues i) (t2 - t))
        = msolve T (M * Matrix.diagonal (fdVec phase l t2)) := by
    intro T M
    simp only [msolve, mul_assoc, hdiag]
  refine ScatteringMatrix.ext rfl ?_ rfl ?_ rfl rfl rfl rfl
  · simp only [appendLayer, extendSMatrix, toBlocks, setEndLayerThickness,
      colScale_eq_mul_diagonal]
    exact key _ _
  · simp only [appendLayer, extendSMatrix, toBlocks, setEndLayerThickness]
    simp only [colScale_eq_mul_diagonal, add_mul, mul_assoc, hdiag]
    rw [key]

/-- Commuting a final-thickness rewrite through a fold of appends. -/
theorem setEnd_scanFold (phase : K → A → K)
    (hom : ∀ q t t', phase q (t + t') = phase q t * phase q t') :
    ∀ (rest : List (LayerSolveResult n K × A)) (s : ScatteringMatrix n K A)
      (l : LayerSolveResult n K) (t t2 : A),
      setEndLayerThickness phase (scanFold phase (appendLayer phase s l t) rest) t2
        = scanFold phase s (setLastThickness ((l, t) :: rest) t2) := by
  intro rest
  induction rest with
  | nil =>
    intro s l t t2
    simpa [scanFold, setLastThickness] using setEnd_appendLayer phase hom s l t t2
  | cons p rest ih =>
    intro s l t t2
    obtain ⟨l', t'⟩ := p
    simpa [scanFold, setLastThickness] using
      ih (appendLayer phase s l t) l' t' t2

/-- Claim C4 (amended to stacks of at least two layers): rewriting the end
thickness of a stack's scattering matrix equals rebuilding the stack with the
end layer's thickness replaced, provided the phase factor is multiplicative in
the thickness (as the true `exp(1j * q * d)` is). -/
theorem set_end_layer_thickness_rebuild {n : ℕ} {K A : Type} [Field K] [DecidableEq K]
    [AddCommGroup A] (phase : K → A → K)
    (hom : ∀ q t t', phase q (t + t') = phase q t * phase q t')
    (l0 : LayerSolveResult n K) (t0 : A) (l1 : LayerSolveResult n K) (t1 : A)
    (rest : List (LayerSolveResult n K × A)) (t2 : A) :
    setEndLayerThickness phase (stackSMatrixCore phase l0 t0 ((l1, t1) :: rest)) t2
      = stackSMatrixCore phase l0 t0 (setLastThickness ((l1, t1) :: rest) t2) := by
  cases rest with
  | nil =>
    simp only [stackSMatrixCore, scanFold, setLastThickness, pair_eq_append_idSMat]
    exact setEnd_appendLayer phase hom (idSMat l0 t0) l1 t1 t2
  | cons p rest =>
    obtain ⟨l', t'⟩ := p
    simp only [stackSMatrixCore, scanFold, setLastThickness]
    exact setEnd_scanFold phase hom rest (pairSMatrix phase l0 t0 l1 t1) l' t' t2

/-- Counterexample to claim C4 as stated for all stacks: for a single-layer
stack (whose scattering matrix is the identity regardless of thickness),
`set_end_layer_thickness` rescales `s22` by a nontrivial phase, whereas
rebuilding with the new thickness returns the identity again — even though the
concrete phase function is a genuine homomorphism in the thickness. -/
theorem set_end_layer_thickness_single_layer_counterexample :
    (∀ q t t', phaseZQ q (t + t') = phaseZQ q t * phaseZQ q t') ∧
      setEndLayerThickness phaseZQ (stackSMatrixCore phaseZQ layerQ2 (0 : ℤ) []) 1
        ≠ stackSMatrixCore phaseZQ layerQ2 (1 : ℤ) [] := by
  refine ⟨phaseZQ_hom, ?_⟩
  intro h
  have h22 := congrArg (fun s : ScatteringMatrix 1 ℚ ℤ => s.s22 0 0) h
  simp only [stackSMatrixCore, setEndLayerThickness, idSMat, colScale, mdiag,
    Matrix.of_apply, Matrix.diagonal_apply_eq, phaseZQ, layerQ2] at h22
  norm_num at h22

/-- Concrete instantiation of the amended thickness-rewrite equivalence on a
two-layer stack with a nontrivial phase. -/
theorem set_end_layer_thickness_rebuild_witness :
    setEndLayerThickness phaseZQ
        (stackSMatrixCore phaseZQ layerW (0 : ℤ) [(layerQ2, 1)]) 2
      = stackSMatrixCore phaseZQ layerW (0 : ℤ) (setLastThickness [(layerQ2, 1)] 2) :=
  set_end_layer_thickness_rebuild phaseZQ phaseZQ_hom layerW 0 layerQ2 1 [] 2

end ClaimC4

section ClaimC8

/-- Claim C8: in the batched backward pass of `eig`, the regularization scale
`eps` of each batch element is computed only from that element's own pairwise
eigenvalue differences, and consequently the gradient returned for a batch
element is unchanged when any other batch element's data (eigenvalues,
eigenvectors, or incoming gradients — all the values derived from that
element's matrix) is altered. -/
theorem eig_bwd_batch_local {m n : ℕ} (epsRelative : ℚ)
    (ev ev' : Fin m → Fin n → QC)
    (V V' : Fin m → Matrix (Fin n) (Fin n) QC)
    (gradEv gradEv' : Fin m → Fin n → QC)
    (gradV gradV' : Fin m → Matrix (Fin n) (Fin n) QC) (b : Fin m)
    (hev : ev b = ev' b) (hV : V b = V' b) (hgl : gradEv b = gradEv' b)
    (hgV : gradV b = gradV' b) :
    batchedEigEps epsRelative ev b = batchedEigEps epsRelative ev' b ∧
      batchedEigBwdGrad epsRelative ev V gradEv gradV b
        = batchedEigBwdGrad epsRelative ev' V' gradEv' gradV' b := by
  constructor
  · simp only [batchedEigEps, hev]
  · simp only [batchedEigBwdGrad, hev, hV, hgl, hgV]



/-- Concrete instantiation of batch locality: altering batch element 1 leaves
element 0's regularization scale and gradient unchanged. -/
theorem eig_bwd_batch_local_witness :
    batchedEigEps EIG_EPS_RELATIVE evBatchA 0 = batchedEigEps EIG_EPS_RELATIVE evBatchB 0 ∧
      batchedEigBwdGrad EIG_EPS_RELATIVE evBatchA (fun _ => 1) (fun _ _ => 1) (fun _ => 1) 0
        = batchedEigBwdGrad EIG_EPS_RELATIVE evBatchB (fun _ => 1) (fun _ _ => 1)
            (fun _ => 1) 0 :=
  eig_bwd_batch_local EIG_EPS_RELATIVE evBatchA evBatchB (fun _ => 1) (fun _ => 1)
    (fun _ _ => 1) (fun _ _ => 1) (fun _ => 1) (fun _ => 1) 0
    (by decide) rfl rfl rfl

end ClaimC8

section ClaimC6

variable {n : ℕ} {K : Type} [Field K] [DecidableEq K]

theorem isUnit_one_sub_comm (a b : Matrix (Fin n) (Fin n) K) (h : IsUnit (1 - a * b)) :
    IsUnit (1 - b * a) := by
  have hd := (Matrix.isUnit_iff_isUnit_det _).mp h
  have e1 : (1 - a * b) * (1 - a * b)⁻¹ = 1 := Matrix.mul_nonsing_inv _ hd
  have e2 : (1 - a * b)⁻¹ * (1 - a * b) = 1 := Matrix.nonsing_inv_mul _ hd
  have h1 : (1 - a * b)⁻¹ - a * b * (1 - a * b)⁻¹ = 1 := by
    calc (1 - a * b)⁻¹ - a * b * (1 - a * b)⁻¹ = (1 - a * b) * (1 - a * b)⁻¹ := by noncomm_ring
    _ = 1 := e1
  have h2 : (1 - a * b)⁻¹ - (1 - a * b)⁻¹ * (a * b) = 1 := by
    calc (1 - a * b)⁻¹ - (1 - a * b)⁻¹ * (a * b)
        = (1 - a * b)⁻¹ * (1 - a * b) := by noncomm_ring
    _ = 1 := e2
  refine ⟨⟨1 - b * a, 1 + b * (1 - a * b)⁻¹ * a, ?_, ?_⟩, rfl⟩
  · calc (1 - b * a) * (1 + b * (1 - a * b)⁻¹ * a)
        = 1 - b * a + b * ((1 - a * b)⁻¹ - a * b * (1 - a * b)⁻¹) * a := by noncomm_ring
    _ = 1 - b * a + b * 1 * a := by rw [h1]
    _ = 1 := by noncomm_ring
  · calc (1 + b * (1 - a * b)⁻¹ * a) * (1 - b * a)
        = 1 - b * a + b * ((1 - a * b)⁻¹ - (1 - a * b)⁻¹ * (a * b)) * a := by noncomm_ring
    _ = 1 - b * a + b * 1 * a := by rw [h2]
    _ = 1 := by noncomm_ring

theorem inv_push (a b : Matrix (Fin n) (Fin n) K) (h : IsUnit (1 - a * b)) :
    (1 - a * b)⁻¹ * a = a * (1 - b * a)⁻¹ := by
  have h2 := isUnit_one_sub_comm a b h
  have hd := (Matrix.isUnit_iff_isUnit_det _).mp h
  have hd2 := (Matrix.isUnit_iff_isUnit_det _).mp h2
  have e : (1 - a * b) * a = a * (1 - b * a) := by noncomm_ring
  calc (1 - a * b)⁻¹ * a
      = (1 - a * b)⁻¹ * a * ((1 - b * a) * (1 - b * a)⁻¹) := by
        rw [Matrix.mul_nonsing_inv _ hd2, mul_one]
    _ = (1 - a * b)⁻¹ * ((1 - a * b) * a) * (1 - b * a)⁻¹ := by
        rw [e]; noncomm_ring
    _ = (1 - a * b)⁻¹ * ((1 - a * b) * (a * (1 - b * a)⁻¹)) := by noncomm_ring
    _ = a * (1 - b * a)⁻¹ := Matrix.nonsing_inv_mul_cancel_left _ _ hd

theorem inv_one_sub_expand (a b : Matrix (Fin n) (Fin n) K) (h : IsUnit (1 - a * b)) :
    (1 - a * b)⁻¹ = 1 + a * ((1 - b * a)⁻¹ * b) := by
  have h2 := isUnit_one_sub_comm a b h
  have hd := (Matrix.isUnit_iff_isUnit_det _).mp h
  have hd2 := (Matrix.isUnit_iff_isUnit_det _).mp h2
  have key : (1 - a * b) * (1 + a * ((1 - b * a)⁻¹ * b)) = 1 := by
    calc (1 - a * b) * (1 + a * ((1 - b * a)⁻¹ * b))
        = 1 - a * b + a * (((1 - b * a) * (1 - b * a)⁻¹) * b) := by noncomm_ring
      _ = 1 - a * b + a * ((1 : Matrix (Fin n) (Fin n) K) * b) := by
          rw [Matrix.mul_nonsing_inv _ hd2]
      _ = 1 := by noncomm_ring
  calc (1 - a * b)⁻¹
      = (1 - a * b)⁻¹ * ((1 - a * b) * (1 + a * ((1 - b * a)⁻¹ * b))) := by
        rw [key, mul_one]
    _ = 1 + a * ((1 - b * a)⁻¹ * b) := Matrix.nonsing_inv_mul_cancel_left _ _ hd

/-- Action of the star-product blocks on boundary amplitudes: if the
intermediate amplitudes `AM`, `BM` solve the coupling equations at the joint,
then the star product maps `(A0, BN)` to the amplitudes predicted by the two
factors. -/
theorem starB_action (a b : SBlocks n K) (h : IsUnit (1 - a.b12 * b.b21))
    (A0 BN AM BM : Matrix (Fin n) (Fin n) K)
    (hAM : AM = a.b11 * A0 + a.b12 * BM)
    (hBM : BM = b.b21 * AM + b.b22 * BN) :
    (starB a b).b11 * A0 + (starB a b).b12 * BN = b.b11 * AM + b.b12 * BN ∧
      (starB a b).b21 * A0 + (starB a b).b22 * BN = a.b21 * A0 + a.b22 * BM := by
  have h2 := isUnit_one_sub_comm _ _ h
  have hd := (Matrix.isUnit_iff_isUnit_det _).mp h
  have hd2 := (Matrix.isUnit_iff_isUnit_det _).mp h2
  have e1 : AM = a.b11 * A0 + a.b12 * (b.b21 * AM + b.b22 * BN) := by
    rw [← hBM]; exact hAM
  have e2 : AM - a.b12 * (b.b21 * AM) = a.b11 * A0 + a.b12 * (b.b22 * BN) := by
    have hsplit : a.b11 * A0 + a.b12 * (b.b21 * AM + b.b22 * BN) - a.b12 * (b.b21 * AM)
        = a.b11 * A0 + a.b12 * (b.b22 * BN) := by noncomm_ring
    rw [← hsplit, ← e1]
  have hAMeq : (1 - a.b12 * b.b21) * AM = a.b11 * A0 + a.b12 * (b.b22 * BN) := by
    calc (1 - a.b12 * b.b21) * AM = AM - a.b12 * (b.b21 * AM) := by noncomm_ring
    _ = _ := e2
  have hAMval : AM = (1 - a.b12 * b.b21)⁻¹ * (a.b11 * A0 + a.b12 * (b.b22 * BN)) := by
    rw [← hAMeq, Matrix.nonsing_inv_mul_cancel_left _ _ hd]
  have e1' : BM = b.b21 * (a.b11 * A0 + a.b12 * BM) + b.b22 * BN := by
    rw [← hAM]; exact hBM
  have e2' : BM - b.b21 * (a.b12 * BM) = b.b21 * (a.b11 * A0) + b.b22 * BN := by
    have hsplit : b.b21 * (a.b11 * A0 + a.b12 * BM) + b.b22 * BN - b.b21 * (a.b12 * BM)
        = b.b21 * (a.b11 * A0) + b.b22 * BN := by noncomm_ring
    rw [← hsplit, ← e1']
  have hBMeq : (1 - b.b21 * a.b12) * BM = b.b21 * (a.b11 * A0) + b.b22 * BN := by
    calc (1 - b.b21 * a.b12) * BM = BM - b.b21 * (a.b12 * BM) := by noncomm_ring
    _ = _ := e2'
  have hBMval : BM = (1 - b.b21 * a.b12)⁻¹ * (b.b21 * (a.b11 * A0) + b.b22 * BN) := by
    rw [← hBMeq, Matrix.nonsing_inv_mul_cancel_left _ _ hd2]
  constructor
  · simp only [starB, msolve_eq]
    rw [hAMval]
    noncomm_ring
  · simp only [starB, msolve_eq]
    rw [hBMval]
    noncomm_ring

/-- Existence of intermediate amplitudes solving the coupling equations. -/
theorem starB_coupling_exists (a b : SBlocks n K) (h : IsUnit (1 - a.b12 * b.b21))
    (A0 BN : Matrix (Fin n) (Fin n) K) :
    ∃ AM BM : Matrix (Fin n) (Fin n) K,
      AM = a.b11 * A0 + a.b12 * BM ∧ BM = b.b21 * AM + b.b22 * BN := by
  have hd := (Matrix.isUnit_iff_isUnit_det _).mp h
  set X := (1 - a.b12 * b.b21)⁻¹ * (a.b11 * A0 + a.b12 * (b.b22 * BN)) with hX
  refine ⟨X, b.b21 * X + b.b22 * BN, ?_, rfl⟩
  have hXeq : (1 - a.b12 * b.b21) * X = a.b11 * A0 + a.b12 * (b.b22 * BN) :=
    Matrix.mul_nonsing_inv_cancel_left _ _ hd
  have h' : X - a.b12 * (b.b21 * X) = a.b11 * A0 + a.b12 * (b.b22 * BN) := by
    calc X - a.b12 * (b.b21 * X) = (1 - a.b12 * b.b21) * X := by noncomm_ring
    _ = _ := hXeq
  have h'' : X = a.b11 * A0 + a.b12 * (b.b22 * BN) + a.b12 * (b.b21 * X) :=
    sub_eq_iff_eq_add.mp h'
  conv_lhs => rw [h'']
  noncomm_ring

/-- A block quadruple is determined by its action on boundary amplitudes. -/
theorem sblocks_eq_of_action (s t : SBlocks n K)
    (h : ∀ A0 BN : Matrix (Fin n) (Fin n) K,
      s.b11 * A0 + s.b12 * BN = t.b11 * A0 + t.b12 * BN ∧
        s.b21 * A0 + s.b22 * BN = t.b21 * A0 + t.b22 * BN) : s = t := by
  obtain ⟨a1, b1⟩ := h 1 0
  obtain ⟨a2, b2⟩ := h 0 1
  simp only [mul_one, mul_zero, add_zero, zero_add] at a1 b1 a2 b2
  exact SBlocks.ext a1 a2 b1 b2

/-- Associativity of the classical star-product block algebra, given that all
four linear solves involved are well posed. -/
theorem starB_assoc (x y z : SBlocks n K)
    (h1 : IsUnit (1 - x.b12 * y.b21))
    (h2 : IsUnit (1 - y.b12 * z.b21))
    (h3 : IsUnit (1 - (starB x y).b12 * z.b21))
    (h4 : IsUnit (1 - x.b12 * (starB y z).b21)) :
    starB (starB x y) z = starB x (starB y z) := by
  apply sblocks_eq_of_action
  intro A0 D
  obtain ⟨M2, W2, hM2, hW2⟩ := starB_coupling_exists (starB x y) z h3 A0 D
  obtain ⟨M1, W1, hM1, hW1⟩ := starB_coupling_exists x y h1 A0 W2
  have hPab := starB_action x y h1 A0 W2 M1 W1 hM1 hW1
  have hM2' : M2 = y.b11 * M1 + y.b12 * W2 := by rw [hM2]; exact hPab.1
  have hLHS := starB_action (starB x y) z h3 A0 D M2 W2 hM2 hW2
  have hbc := starB_action y z h2 M1 D M2 W2 hM2' hW2
  have hW1' : W1 = (starB y z).b21 * M1 + (starB y z).b22 * D := by
    rw [hbc.2]; exact hW1
  have hRHS := starB_action x (starB y z) h4 A0 D M1 W1 hM1 hW1'
  constructor
  · rw [hLHS.1, hRHS.1, hbc.1]
  · rw [hLHS.2, hRHS.2, hPab.2]

section ExtendFactorization


theorem extend_w1_eq (I J F S : Matrix (Fin n) (Fin n) K) (hI : IsUnit I) :
    I * (1 - (I⁻¹ * F) * (S * J)) = I - F * S * J := by
  have hdI := (Matrix.isUnit_iff_isUnit_det _).mp hI
  calc I * (1 - (I⁻¹ * F) * (S * J)) = I - I * (I⁻¹ * (F * (S * J))) := by noncomm_ring
    _ = I - F * (S * J) := by rw [Matrix.mul_nonsing_inv_cancel_left _ _ hdI]
    _ = I - F * S * J := by noncomm_ring

theorem extend_w1_isUnit (I J F S : Matrix (Fin n) (Fin n) K) (hI : IsUnit I)
    (hN : IsUnit (I - F * S * J)) : IsUnit (1 - (I⁻¹ * F) * (S * J)) := by
  have hdI := (Matrix.isUnit_iff_isUnit_det _).mp hI
  have hIinv : IsUnit I⁻¹ := Matrix.isUnit_nonsing_inv_iff.mpr hI
  have heq : (1 : Matrix (Fin n) (Fin n) K) - (I⁻¹ * F) * (S * J)
      = I⁻¹ * (I - F * S * J) := by
    calc (1 : Matrix (Fin n) (Fin n) K) - (I⁻¹ * F) * (S * J)
        = I⁻¹ * (I * (1 - (I⁻¹ * F) * (S * J))) :=
          (Matrix.nonsing_inv_mul_cancel_left _ _ hdI).symm
      _ = I⁻¹ * (I - F * S * J) := by rw [extend_w1_eq I J F S hI]
  rw [heq]
  exact hIinv.mul hN

theorem extend_u_isUnit (I J F S : Matrix (Fin n) (Fin n) K) (hI : IsUnit I)
    (hN : IsUnit (I - F * S * J)) : IsUnit (1 - S * (J * (I⁻¹ * F))) := by
  have h1 := isUnit_one_sub_comm _ _ (extend_w1_isUnit I J F S hI hN)
  have halign : (1 : Matrix (Fin n) (Fin n) K) - (S * J) * (I⁻¹ * F)
      = 1 - S * (J * (I⁻¹ * F)) := by noncomm_ring
  rwa [halign] at h1

theorem extend_v_isUnit (I J F S : Matrix (Fin n) (Fin n) K) (hI : IsUnit I)
    (hN : IsUnit (I - F * S * J)) : IsUnit (1 - (J * (I⁻¹ * F)) * S) :=
  isUnit_one_sub_comm _ _ (extend_u_isUnit I J F S hI hN)

theorem extend_Ninv_eq (I J F S : Matrix (Fin n) (Fin n) K) (hI : IsUnit I) :
    (I - F * S * J)⁻¹ = (1 - (I⁻¹ * F) * (S * J))⁻¹ * I⁻¹ := by
  rw [← extend_w1_eq I J F S hI, Matrix.mul_inv_rev]

theorem extend_raw11 (I J F S : Matrix (Fin n) (Fin n) K) (hI : IsUnit I)
    (hN : IsUnit (I - F * S * J)) :
    (I - F * S * J)⁻¹ * F = (I⁻¹ * F) * (1 - S * (J * (I⁻¹ * F)))⁻¹ := by
  have hw1 := extend_w1_isUnit I J F S hI hN
  have halign : (1 : Matrix (Fin n) (Fin n) K) - (S * J) * (I⁻¹ * F)
      = 1 - S * (J * (I⁻¹ * F)) := by noncomm_ring
  calc (I - F * S * J)⁻¹ * F
      = ((1 - (I⁻¹ * F) * (S * J))⁻¹ * I⁻¹) * F := by rw [extend_Ninv_eq I J F S hI]
    _ = (1 - (I⁻¹ * F) * (S * J))⁻¹ * (I⁻¹ * F) :=
        Matrix.mul_assoc _ _ _
    _ = (I⁻¹ * F) * (1 - (S * J) * (I⁻¹ * F))⁻¹ := inv_push _ _ hw1
    _ = (I⁻¹ * F) * (1 - S * (J * (I⁻¹ * F)))⁻¹ := by rw [halign]

theorem extend_raw12 (I J F G S : Matrix (Fin n) (Fin n) K) (hI : IsUnit I)
    (hN : IsUnit (I - F * S * J)) :
    (I - F * S * J)⁻¹ * ((F * S * I - J) * G)
      = -(I⁻¹ * (J * G))
        + (I⁻¹ * F) * ((1 - S * (J * (I⁻¹ * F)))⁻¹ * (S * ((I - J * (I⁻¹ * J)) * G))) := by
  have hdI := (Matrix.isUnit_iff_isUnit_det _).mp hI
  have hdN := (Matrix.isUnit_iff_isUnit_det _).mp hN
  have hu := extend_u_isUnit I J F S hI hN
  have hdu := (Matrix.isUnit_iff_isUnit_det _).mp hu
  have e1 : (I - F * S * J) * (I⁻¹ * F) = F * (1 - S * (J * (I⁻¹ * F))) := by
    have hexp : (I - F * S * J) * (I⁻¹ * F)
        = I * (I⁻¹ * F) - F * (S * (J * (I⁻¹ * F))) := by noncomm_ring
    rw [hexp, Matrix.mul_nonsing_inv_cancel_left _ _ hdI]
    noncomm_ring
  have step2 : (I - F * S * J)
        * ((I⁻¹ * F) * ((1 - S * (J * (I⁻¹ * F)))⁻¹ * (S * ((I - J * (I⁻¹ * J)) * G))))
      = F * (S * ((I - J * (I⁻¹ * J)) * G)) := by
    calc (I - F * S * J)
          * ((I⁻¹ * F) * ((1 - S * (J * (I⁻¹ * F)))⁻¹ * (S * ((I - J * (I⁻¹ * J)) * G))))
        = ((I - F * S * J) * (I⁻¹ * F))
            * ((1 - S * (J * (I⁻¹ * F)))⁻¹ * (S * ((I - J * (I⁻¹ * J)) * G))) :=
          (Matrix.mul_assoc _ _ _).symm
      _ = (F * (1 - S * (J * (I⁻¹ * F))))
            * ((1 - S * (J * (I⁻¹ * F)))⁻¹ * (S * ((I - J * (I⁻¹ * J)) * G))) := by rw [e1]
      _ = F * ((1 - S * (J * (I⁻¹ * F)))
            * ((1 - S * (J * (I⁻¹ * F)))⁻¹ * (S * ((I - J * (I⁻¹ * J)) * G)))) :=
          Matrix.mul_assoc _ _ _
      _ = F * (S * ((I - J * (I⁻¹ * J)) * G)) := by
          rw [Matrix.mul_nonsing_inv_cancel_left _ _ hdu]
  have c1 : I * (I⁻¹ * (J * G)) = J * G := Matrix.mul_nonsing_inv_cancel_left _ _ hdI
  have combine : (I - F * S * J)
        * (-(I⁻¹ * (J * G))
          + (I⁻¹ * F) * ((1 - S * (J * (I⁻¹ * F)))⁻¹ * (S * ((I - J * (I⁻¹ * J)) * G))))
      = (F * S * I - J) * G := by
    rw [mul_add, step2]
    have hexp : (I - F * S * J) * (-(I⁻¹ * (J * G)))
        = -(I * (I⁻¹ * (J * G))) + F * (S * (J * (I⁻¹ * (J * G)))) := by noncomm_ring
    rw [hexp, c1]
    noncomm_ring
  calc (I - F * S * J)⁻¹ * ((F * S * I - J) * G)
      = (I - F * S * J)⁻¹ * ((I - F * S * J)
          * (-(I⁻¹ * (J * G))
            + (I⁻¹ * F) * ((1 - S * (J * (I⁻¹ * F)))⁻¹ * (S * ((I - J * (I⁻¹ * J)) * G))))) := by
        rw [combine]
    _ = _ := Matrix.nonsing_inv_mul_cancel_left _ _ hdN

theorem extend_raw21 (I J F S X11 X21 X22 : Matrix (Fin n) (Fin n) K) (hI : IsUnit I)
    (hN : IsUnit (I - F * S * J)) :
    X22 * J * ((I - F * S * J)⁻¹ * (F * X11)) + X21
      = X21 + X22 * ((1 - (J * (I⁻¹ * F)) * S)⁻¹ * ((J * (I⁻¹ * F)) * X11)) := by
  have hv := extend_v_isUnit I J F S hI hN
  have h11 : (I - F * S * J)⁻¹ * (F * X11)
      = (I⁻¹ * F) * ((1 - S * (J * (I⁻¹ * F)))⁻¹ * X11) := by
    calc (I - F * S * J)⁻¹ * (F * X11) = ((I - F * S * J)⁻¹ * F) * X11 :=
          (Matrix.mul_assoc _ _ _).symm
      _ = ((I⁻¹ * F) * (1 - S * (J * (I⁻¹ * F)))⁻¹) * X11 := by
          rw [extend_raw11 I J F S hI hN]
      _ = _ := Matrix.mul_assoc _ _ _
  rw [h11]
  calc X22 * J * ((I⁻¹ * F) * ((1 - S * (J * (I⁻¹ * F)))⁻¹ * X11)) + X21
      = X21 + X22 * (((J * (I⁻¹ * F)) * (1 - S * (J * (I⁻¹ * F)))⁻¹) * X11) := by noncomm_ring
    _ = X21 + X22 * (((1 - (J * (I⁻¹ * F)) * S)⁻¹ * (J * (I⁻¹ * F))) * X11) := by
        rw [← inv_push _ _ hv]
    _ = _ := by noncomm_ring

theorem extend_raw22 (I J F G S X22 : Matrix (Fin n) (Fin n) K) (hI : IsUnit I)
    (hN : IsUnit (I - F * S * J)) :
    X22 * J * ((I - F * S * J)⁻¹ * ((F * S * I - J) * G)) + (X22 * I) * G
      = X22 * ((1 - (J * (I⁻¹ * F)) * S)⁻¹ * ((I - J * (I⁻¹ * J)) * G)) := by
  have hv := extend_v_isUnit I J F S hI hN
  rw [extend_raw12 I J F G S hI hN]
  rw [inv_one_sub_expand _ _ hv]
  noncomm_ring

theorem extend_app11 (I J F S X11 : Matrix (Fin n) (Fin n) K) (hI : IsUnit I)
    (hN : IsUnit (I - F * S * J)) :
    (I - F * S * J)⁻¹ * (F * X11)
      = (I⁻¹ * F) * ((1 - S * (J * (I⁻¹ * F)))⁻¹ * X11) := by
  calc (I - F * S * J)⁻¹ * (F * X11) = ((I - F * S * J)⁻¹ * F) * X11 :=
        (Matrix.mul_assoc _ _ _).symm
    _ = ((I⁻¹ * F) * (1 - S * (J * (I⁻¹ * F)))⁻¹) * X11 := by
        rw [extend_raw11 I J F S hI hN]
    _ = _ := Matrix.mul_assoc _ _ _

/-- Extending a block quadruple by one layer coincides with taking the star
product with the transition's interface scattering blocks, whenever the
interface matrix `i11` and the extension's `term3` solve are well posed. -/
theorem extend_eq_starB {A : Type} [AddCommGroup A] (phase : K → A → K)
    (X : SBlocks n K) (l : LayerSolveResult n K) (t : A) (l' : LayerSolveResult n K) (t' : A)
    (hI : IsUnit (i11M l l'))
    (hT : IsUnit (i11M l l' - rowScale (fdVec phase l t) X.b12 * i12M l l')) :
    extendSMatrix phase X l t l' t' = starB X (interfaceSB phase l t l' t') := by
  rw [rowScale_eq_diagonal_mul] at hT
  refine SBlocks.ext ?_ ?_ ?_ ?_ <;>
    simp only [extendSMatrix, starB, interfaceSB, msolve_eq, minv_eq_inv,
      rowScale_eq_diagonal_mul, colScale_eq_mul_diagonal]
  · exact extend_app11 _ _ _ _ _ hI hT
  · exact extend_raw12 _ _ _ _ _ hI hT
  · exact extend_raw21 _ _ _ _ _ _ _ hI hT
  · exact extend_raw22 _ _ _ _ _ _ hI hT

end ExtendFactorization

section Assembly

variable {A : Type} [AddCommGroup A]



theorem redheffer_toBlocks (phase : K → A → K) (a b : ScatteringMatrix n K A) :
    toBlocks (redhefferStarProduct phase a b)
      = starB (starExtendBlocks phase a b) (toBlocks b) :=
  rfl

/-- Claim C6: the Redheffer star product of the code is associative, provided
every linear solve appearing on either side of the identity (the star-product
solves and the interface/`term3` solves of the two internal `append_layer`
extensions) is well posed. -/
theorem redheffer_star_product_assoc {n : ℕ} {K A : Type} [Field K] [DecidableEq K]
    [AddCommGroup A] (phase : K → A → K) (a b c : ScatteringMatrix n K A)
    (hI2 : IsUnit (i11M b.end_layer_solve_result c.start_layer_solve_result))
    (hT2 : IsUnit (i11M b.end_layer_solve_result c.start_layer_solve_result
        - rowScale (fdVec phase b.end_layer_solve_result b.end_layer_thickness)
            (starB (starExtendBlocks phase a b) (toBlocks b)).b12
          * i12M b.end_layer_solve_result c.start_layer_solve_result))
    (hT3 : IsUnit (i11M b.end_layer_solve_result c.start_layer_solve_result
        - rowScale (fdVec phase b.end_layer_solve_result b.end_layer_thickness) b.s12
          * i12M b.end_layer_solve_result c.start_layer_solve_result))
    (hA : IsUnit (1 - (starExtendBlocks phase a b).b12 * b.s21))
    (hB : IsUnit (1 - (interfaceAt phase b c).b12 * c.s21))
    (hC : IsUnit (1 - (starB (starB (starExtendBlocks phase a b) (toBlocks b))
        (interfaceAt phase b c)).b12 * c.s21))
    (hD : IsUnit (1 - (starB (starExtendBlocks phase a b) (toBlocks b)).b12
        * (starB (interfaceAt phase b c) (toBlocks c)).b21))
    (hE : IsUnit (1 - b.s12 * (starB (interfaceAt phase b c) (toBlocks c)).b21))
    (hF : IsUnit (1 - (starExtendBlocks phase a b).b12
        * (starB (toBlocks b) (starB (interfaceAt phase b c) (toBlocks c))).b21))
    (hG : IsUnit (1 - (starB (toBlocks b) (interfaceAt phase b c)).b12 * c.s21)) :
    redhefferStarProduct phase (redhefferStarProduct phase a b) c
      = redhefferStarProduct phase a (redhefferStarProduct phase b c) := by
  have hu1 : IsUnit (1 - (starB (starExtendBlocks phase a b) (toBlocks b)).b12
      * (interfaceAt phase b c).b21) := by
    have h := extend_u_isUnit (i11M b.end_layer_solve_result c.start_layer_solve_result)
      (i12M b.end_layer_solve_result c.start_layer_solve_result)
      (Matrix.diagonal (fdVec phase b.end_layer_solve_result b.end_layer_thickness))
      (starB (starExtendBlocks phase a b) (toBlocks b)).b12 hI2
      (by rwa [rowScale_eq_diagonal_mul] at hT2)
    rwa [← minv_eq_inv] at h
  have hu9 : IsUnit (1 - b.s12 * (interfaceAt phase b c).b21) := by
    have h := extend_u_isUnit (i11M b.end_layer_solve_result c.start_layer_solve_result)
      (i12M b.end_layer_solve_result c.start_layer_solve_result)
      (Matrix.diagonal (fdVec phase b.end_layer_solve_result b.end_layer_thickness))
      b.s12 hI2 (by rwa [rowScale_eq_diagonal_mul] at hT3)
    rwa [← minv_eq_inv] at h
  have fact1 : extendSMatrix phase (starB (starExtendBlocks phase a b) (toBlocks b))
        b.end_layer_solve_result b.end_layer_thickness
        c.start_layer_solve_result c.start_layer_thickness
      = starB (starB (starExtendBlocks phase a b) (toBlocks b)) (interfaceAt phase b c) :=
    extend_eq_starB phase _ _ _ _ _ hI2 hT2
  have fact2 : extendSMatrix phase (toBlocks b)
        b.end_layer_solve_result b.end_layer_thickness
        c.start_layer_solve_result c.start_layer_thickness
      = starB (toBlocks b) (interfaceAt phase b c) :=
    extend_eq_starB phase _ _ _ _ _ hI2 hT3
  have main : starB (extendSMatrix phase (starB (starExtendBlocks phase a b) (toBlocks b))
        b.end_layer_solve_result b.end_layer_thickness
        c.start_layer_solve_result c.start_layer_thickness) (toBlocks c)
      = starB (starExtendBlocks phase a b)
          (starB (extendSMatrix phase (toBlocks b)
            b.end_layer_solve_result b.end_layer_thickness
            c.start_layer_solve_result c.start_layer_thickness) (toBlocks c)) := by
    rw [fact1, fact2]
    rw [starB_assoc (starB (starExtendBlocks phase a b) (toBlocks b)) (interfaceAt phase b c)
      (toBlocks c) hu1 hB hC hD]
    rw [starB_assoc (starExtendBlocks phase a b) (toBlocks b)
      (starB (interfaceAt phase b c) (toBlocks c)) hA hE hD hF]
    rw [← starB_assoc (toBlocks b) (interfaceAt phase b c) (toBlocks c) hu9 hB hG hE]
  exact ScatteringMatrix.ext (congrArg SBlocks.b11 main) (congrArg SBlocks.b12 main)
    (congrArg SBlocks.b21 main) (congrArg SBlocks.b22 main) rfl rfl rfl rfl

theorem isUnit_of_eq_one (M : Matrix (Fin n) (Fin n) K) (h : M = 1) : IsUnit M :=
  h ▸ isUnit_one

theorem minv_one : minv (1 : Matrix (Fin n) (Fin n) K) = 1 := by
  simp [minv, Matrix.det_one, Matrix.adjugate_one]

theorem msolve_one (B : Matrix (Fin n) (Fin n) K) : msolve 1 B = B := by
  rw [msolve, minv_one, one_mul]

theorem rowScale_ones (M : Matrix (Fin n) (Fin n) K) :
    rowScale (fun _ => (1 : K)) M = M := by
  ext i j
  simp [rowScale]

theorem colScale_ones (M : Matrix (Fin n) (Fin n) K) :
    colScale M (fun _ => (1 : K)) = M := by
  ext i j
  simp [colScale]

theorem colScale_zero (v : Fin n → K) :
    colScale (0 : Matrix (Fin n) (Fin n) K) v = 0 := by
  ext i j
  simp [colScale]



theorem wit_term1 : interfaceTerm1 layerW layerW = 1 := by
  simp [interfaceTerm1, layerW, msolve_one, rowScale_ones, colScale_ones]

theorem wit_term2 : interfaceTerm2 layerW layerW = 1 := by
  simp [interfaceTerm2, layerW, msolve_one]

theorem wit_i11 : i11M layerW layerW = 1 := by
  rw [i11M, wit_term1, wit_term2]
  ext i j
  fin_cases i <;> fin_cases j <;>
    · simp [Matrix.smul_apply, Matrix.one_apply]
      norm_num

theorem wit_i12 : i12M layerW layerW = 0 := by
  rw [i12M, wit_term1, wit_term2]
  simp

theorem wit_toBlocks : toBlocks sW = IdB := by
  simp [toBlocks, sW, idSMat, mdiag_ones, IdB]

theorem fdVec_phaseOne (l : LayerSolveResult 1 ℚ) (t : ℚ) :
    fdVec phaseOne l t = fun _ => 1 :=
  rfl

theorem wit_ext : starExtendBlocks phaseOne sW sW = IdB := by
  refine SBlocks.ext ?_ ?_ ?_ ?_ <;>
    simp [starExtendBlocks, extendSMatrix, toBlocks, sW, idSMat, mdiag_ones, wit_i11, wit_i12,
      rowScale_zero, rowScale_ones, colScale_zero, colScale_ones, msolve_one, fdVec_phaseOne,
      IdB]

theorem wit_star_IdB : starB IdB IdB = IdB := by
  refine SBlocks.ext ?_ ?_ ?_ ?_ <;> simp [starB, IdB, msolve_one]

theorem wit_interface : interfaceAt phaseOne sW sW = IdB := by
  refine SBlocks.ext ?_ ?_ ?_ ?_ <;>
    simp [interfaceAt, interfaceSB, sW, idSMat, wit_i11, wit_i12, minv_one, fdVec_phaseOne,
      Matrix.diagonal_one, IdB]

/-- Concrete instantiation of star-product associativity on identity layers:
all solves are against the identity matrix. -/
theorem redheffer_star_product_assoc_witness :
    redhefferStarProduct phaseOne (redhefferStarProduct phaseOne sW sW) sW
      = redhefferStarProduct phaseOne sW (redhefferStarProduct phaseOne sW sW) :=
  redheffer_star_product_assoc phaseOne sW sW sW
    (isUnit_of_eq_one _ wit_i11)
    (isUnit_of_eq_one _ (by
      rw [wit_ext, wit_toBlocks, wit_star_IdB]
      simp [IdB, rowScale_zero]
      exact wit_i11))
    (isUnit_of_eq_one _ (by
      rw [show sW.s12 = (0 : Matrix (Fin 1) (Fin 1) ℚ) from rfl]
      simp [rowScale_zero]
      exact wit_i11))
    (isUnit_of_eq_one _ (by rw [wit_ext]; simp [IdB]))
    (isUnit_of_eq_one _ (by rw [wit_interface]; simp [IdB]))
    (isUnit_of_eq_one _ (by
      rw [wit_ext, wit_toBlocks, wit_star_IdB, wit_interface, wit_star_IdB]
      simp [IdB]))
    (isUnit_of_eq_one _ (by
      rw [wit_ext, wit_toBlocks, wit_star_IdB, wit_interface, wit_star_IdB]
      simp [IdB]))
    (isUnit_of_eq_one _ (by
      rw [wit_interface, wit_toBlocks, wit_star_IdB]
      simp [IdB]))
    (isUnit_of_eq_one _ (by
      rw [wit_ext, wit_toBlocks, wit_interface, wit_star_IdB, wit_star_IdB]
      simp [IdB]))
    (isUnit_of_eq_one _ (by
      rw [wit_toBlocks, wit_interface, wit_star_IdB]
      simp [IdB]))

end Assembly

end ClaimC6

end FmmaxSpec
